import Mathlib

/-!
# goledger `dblentry`: accounts and postings

A shallow embedding of `dblentry/accounts.go` and `dblentry/posting.go`.

* A Go `string` is a byte sequence; it is embedded as `List Char`, one `Char`
  per byte.  Every string operation of the two files (`strings.Trim`,
  `strings.Split`, `strings.Join`, `strings.HasPrefix`, `strings.HasSuffix`,
  byte slicing) compares bytes against the ASCII bytes of `":"` and
  `"Unknown"` only, so the embedding is byte-exact.
* A Go method that mutates through its pointer receiver becomes a function
  returning the new value (explicit state passing).
* A Go `panic` (nil dereference, slice bound out of range) becomes an
  `Except.error` carrying a `Fault`; an `error` return value becomes an
  `Option Error` next to the resulting state.
* `Commodity`, `Datastore`, `Transaction` and the Reporter are declared
  outside the two files; they are embedded from their description, an amount
  being an exact rational.  The calls made on the Reporter are recorded in
  the datastore state.
* Accounts are held by value, keyed by name in the registry; that no two
  accounts share a balance is what `Clone` has to provide, and it is stated
  on a second model with addresses (`Mem`).
-/

set_option autoImplicit false

namespace dblentry

/-! ## Go strings -/

/-- Go `string`: a sequence of bytes. -/
abbrev GoString := List Char

namespace strings

/-- Go `strings.TrimLeft(s, string(c))` for a one-byte cutset. -/
def TrimLeft (s : GoString) (c : Char) : GoString :=
  s.dropWhile (fun x => x == c)

/-- Go `strings.TrimRight(s, string(c))` for a one-byte cutset. -/
def TrimRight (s : GoString) (c : Char) : GoString :=
  (s.reverse.dropWhile (fun x => x == c)).reverse

/-- Go `strings.Trim(s, string(c))`: all leading and trailing `c` removed. -/
def Trim (s : GoString) (c : Char) : GoString :=
  TrimRight (TrimLeft s c) c

/-- Go `strings.Split(s, string(sep))` for a one-byte separator: the
substrings between separators; a string with `n` separators gives `n + 1`
substrings, the empty string gives one empty substring. -/
def Split : GoString → Char → List GoString
  | [], _ => [[]]
  | x :: xs, sep =>
    if x = sep then [] :: Split xs sep
    else
      match Split xs sep with
      | [] => [[x]]
      | seg :: rest => (x :: seg) :: rest

/-- Go `strings.Join(elems, string(sep))` for a one-byte separator. -/
def Join : List GoString → Char → GoString
  | [], _ => []
  | [a], _ => a
  | a :: b :: rest, sep => a ++ sep :: Join (b :: rest) sep

/-- Go `strings.HasPrefix(s, p)`. -/
def HasPrefix (s p : GoString) : Bool := p.isPrefixOf s

/-- Go `strings.HasSuffix(s, p)`. -/
def HasSuffix (s p : GoString) : Bool := p.isSuffixOf s

end strings

/-- Go slice expression `s[:hi]` with a signed bound; out of range panics. -/
def sliceTo (s : GoString) (hi : Int) : Option GoString :=
  if 0 ≤ hi ∧ hi ≤ s.length then some (s.take hi.toNat) else none

/-- Go slice expression `s[lo:]` with a signed bound; out of range panics. -/
def sliceFrom (s : GoString) (lo : Int) : Option GoString :=
  if 0 ≤ lo ∧ lo ≤ s.length then some (s.drop lo.toNat) else none

/-! ## Go maps keyed by strings -/

/-- Go `map[string]V`, as an association list searched from the front. -/
abbrev GoMap (V : Type) := List (GoString × V)

namespace GoMap

/-- Go `v, ok := m[k]`. -/
def get? {V : Type} : GoMap V → GoString → Option V
  | [], _ => none
  | (k1, v) :: rest, k => if k1 = k then some v else get? rest k

/-- Go `m[k] = v`: overwrite the entry of `k`, or add one. -/
def set {V : Type} : GoMap V → GoString → V → GoMap V
  | [], k, v => [(k, v)]
  | (k1, v1) :: rest, k, v =>
    if k1 = k then (k, v) :: rest else (k1, v1) :: set rest k v

end GoMap

/-! ## Commodity -/

/-- Modelled from the spec: the `Commodity` struct is declared in
`commodity.go`, which is not among the sources.  The spec gives it a symbol
`name`, a signed decimal `amount` (here an exact rational), the `currency`
flag, and the mark read by `isTotal` (a price written as an aggregate rather
than per unit).  Display precision and format play no part in any function
embedded here. -/
structure Commodity where
  name : GoString
  amount : ℚ
  currency : Bool
  total : Bool
  deriving DecidableEq

namespace Commodity

/-- Modelled from the spec: `makeSimilar(amount)` is absent from the sources;
it gives a new Commodity sharing symbol and format with the given amount. -/
def makeSimilar (comm : Commodity) (amount : ℚ) : Commodity :=
  { comm with amount := amount }

/-- Modelled from the spec: `Clone()` is absent from the sources; it gives an
independent deep copy. -/
def Clone (comm : Commodity) : Commodity := comm

/-- Modelled from the spec: `BalanceEqual(other)` is absent from the sources;
true iff same symbol and equal amount, false on a symbol mismatch. -/
def BalanceEqual (comm other : Commodity) : Bool :=
  decide (comm.name = other.name) && decide (comm.amount = other.amount)

/-- Modelled from the spec: `isTotal()` is absent from the sources; true if
the price was written as an aggregate, not per unit. -/
def isTotal (comm : Commodity) : Bool := comm.total

end Commodity

/-! ## Account (accounts.go) -/

/-- The `Account` struct.  Its balance map is held by value: every entry is
put there as a fresh `makeSimilar` or `Clone` copy, so no two accounts share
one; `Clone` itself is embedded on the pointer-level model `Mem` below. -/
structure Account where
  name : GoString
  virtual : Bool
  balanced : Bool
  hasposting : Bool
  balance : GoMap Commodity
  notes : List GoString
  aliases : List GoString
  payees : List GoString
  deriving DecidableEq

/-- Go `NewAccount(name)`: zero-valued fields and an empty balance map. -/
def NewAccount (name : GoString) : Account :=
  { name := name, virtual := false, balanced := false, hasposting := false,
    balance := [], notes := [], aliases := [], payees := [] }

namespace Account

/-- Go `acc.setPosting()`. -/
def setPosting (acc : Account) : Account :=
  { acc with hasposting := true }

/-- Go `acc.setOpeningbalance(commodity)`. -/
def setOpeningbalance (acc : Account) (commodity : Commodity) : Account :=
  { acc with
    balance := acc.balance.set commodity.name (commodity.makeSimilar commodity.amount) }

/-- Go `acc.isUnknown()`. -/
def isUnknown (acc : Account) : Bool :=
  decide (acc.name = "Unknown".toList) || strings.HasSuffix acc.name ":Unknown".toList

/-- Go `acc.Balance(name)` for a symbol; `none` is the nil result. -/
def Balance (acc : Account) (name : GoString) : Option Commodity :=
  acc.balance.get? name

/-- Go `acc.addBalance(commodity)`. -/
def addBalance (acc : Account) (commodity : Commodity) : Account :=
  match acc.balance.get? commodity.name with
  | some balance =>
    { acc with
      balance := acc.balance.set commodity.name
        { balance with amount := balance.amount + commodity.amount } }
  | none =>
    { acc with
      balance := acc.balance.set commodity.name (commodity.makeSimilar commodity.amount) }

/-- Go `acc.deductBalance(commodity)`. -/
def deductBalance (acc : Account) (commodity : Commodity) : Account :=
  match acc.balance.get? commodity.name with
  | some balance =>
    { acc with
      balance := acc.balance.set commodity.name
        { balance with amount := balance.amount - commodity.amount } }
  | none =>
    { acc with
      balance := acc.balance.set commodity.name (commodity.makeSimilar commodity.amount) }

end Account

/-- Go `SplitAccount(name)`. -/
def SplitAccount (name : GoString) : List GoString :=
  strings.Split (strings.Trim name ':') ':'

/-- Go `JoinAccounts(segments)`. -/
def JoinAccounts (segments : List GoString) : GoString :=
  strings.Join segments ':'

/-- A Go panic. -/
inductive Fault where
  | nilDereference
  | sliceBounds
  | impossibleSituation
  | divideByZero
  deriving DecidableEq

/-- Go `int` value of an exact integer: 64-bit two's complement wrap-around. -/
def wrapInt (x : Int) : Int := (x + 2 ^ 63) % 2 ^ 64 - 2 ^ 63

/-- Loop of `FitAccountname` over the segments still to visit, with the
running `scraplen` and the `names` collected so far. -/
def FitAccountname.loop : List GoString → Int → List GoString → Except Fault (List GoString)
  | [], _, names => .ok names
  | name :: rest, scraplen, names =>
    let names := if scraplen ≤ 0 then names ++ [name] else names
    match sliceFrom name 3 with
    | none => .error .sliceBounds
    | some tail =>
      if (tail.length : Int) < scraplen then
        match sliceTo name 3 with
        | none => .error .sliceBounds
        | some head => loop rest (wrapInt (scraplen - tail.length)) (names ++ [head])
      else
        match sliceTo name (wrapInt (name.length - scraplen)) with
        | none => .error .sliceBounds
        | some head => loop rest 0 (names ++ [head])

/-- Go `FitAccountname(name, maxwidth)`. -/
def FitAccountname (name : GoString) (maxwidth : Int) : Except Fault GoString :=
  if (name.length : Int) < maxwidth then .ok name
  else
    match FitAccountname.loop (SplitAccount name) (wrapInt (maxwidth - name.length)) [] with
    | .error f => .error f
    | .ok names => .ok (JoinAccounts names)

/-! ## Posting (posting.go) and its collaborators -/

/-- Modelled from the spec: the `Transaction` struct is declared outside the
sources; the postings read its `Payee()` and its metadata. -/
structure Transaction where
  payee : GoString
  metadata : GoMap GoString
  deriving DecidableEq

/-- Modelled from the spec: `trans.Payee()`. -/
def Transaction.Payee (trans : Transaction) : GoString := trans.payee

/-- The `*Account` held by a posting.  The grammar gives the posting a private
Account of its own (`parsed`); `Firstpass` rebinds it to the registry entry
`db.GetAccount(name)`, which is referentially stable and so is denoted by
its name (`canonical`). -/
inductive AccountPtr where
  | parsed (acc : Account)
  | canonical (name : GoString)
  deriving DecidableEq

/-- The `Posting` struct (the lot date, a `time.Time`, is left out: no
function embedded here reads it). -/
structure Posting where
  trans : Transaction
  account : AccountPtr
  virtual : Bool
  balanced : Bool
  commodity : Option Commodity
  lotprice : Option Commodity
  costprice : Option Commodity
  balprice : Option Commodity
  tags : List GoString
  metadata : GoMap GoString
  note : GoString
  deriving DecidableEq

/-- The `error` values built by `fmt.Errorf` in the two files, with the
arguments of the format, and the errors handed back by the Reporter. -/
inductive Error where
  | noMatchingPayee (account payee : GoString)
  | noMatchingPrefix (account accname : GoString)
  | notDeclared (accname : GoString)
  | balanceMismatch (accname : GoString) (balprice balance : Commodity)
  | reporter (msg : GoString)
  deriving DecidableEq

/-- A call received by the Reporter. -/
inductive ReporterCall where
  | posting (p : Posting)
  | bubblePosting (p : Posting) (account : GoString)
  deriving DecidableEq

/-- Modelled from the spec: the `Datastore` struct is declared outside the
sources.  It is the registry of accounts (name is the sole identity key),
the strict-mode flag, and the alias, root and payee rules behind
`lookupAlias`, `applyroot` and `matchpayee`, which are taken as given
functions.  `reported` records the calls made on `db.reporter`. -/
structure Datastore where
  accntdb : List Account
  strict : Bool
  lookupAlias : GoString → GoString
  applyroot : GoString → GoString
  matchpayee : GoString → GoString × Bool
  reported : List ReporterCall

/-- Modelled from the spec: the Reporter is an external sink; its two
methods answer error-or-nil (`none` is nil). -/
structure Reporter where
  Posting : Datastore → Transaction → dblentry.Posting → Option GoString
  BubblePosting : Datastore → Transaction → dblentry.Posting → Account → Option GoString

namespace Datastore

/-- The registry entry of a name, if any. -/
def findAccount (db : Datastore) (name : GoString) : Option Account :=
  db.accntdb.find? (fun a => decide (a.name = name))

/-- Modelled from the spec: `db.IsStrict()`. -/
def IsStrict (db : Datastore) : Bool := db.strict

/-- Modelled from the spec: `db.HasAccount(name)`. -/
def HasAccount (db : Datastore) (name : GoString) : Bool :=
  (db.findAccount name).isSome

/-- Modelled from the spec: `db.GetAccount(name)`, create-or-fetch of the
canonical account of that name. -/
def GetAccount (db : Datastore) (name : GoString) : Datastore × Account :=
  match db.findAccount name with
  | some acc => (db, acc)
  | none => ({ db with accntdb := db.accntdb ++ [NewAccount name] }, NewAccount name)

/-- Replace the first account named as `acc` in a list, or add `acc`. -/
def putList : List Account → Account → List Account
  | [], acc => [acc]
  | a :: rest, acc => if a.name = acc.name then acc :: rest else a :: putList rest acc

/-- A write through the pointer to the registry entry named `acc.name`. -/
def putAccount (db : Datastore) (acc : Account) : Datastore :=
  { db with accntdb := putList db.accntdb acc }

/-- One more call recorded on `db.reporter`. -/
def record (db : Datastore) (call : ReporterCall) : Datastore :=
  { db with reported := db.reported ++ [call] }

end Datastore

namespace AccountPtr

/-- Go `ptr.name`. -/
def name : AccountPtr → GoString
  | .parsed acc => acc.name
  | .canonical n => n

/-- The Account a pointer refers to in a datastore state. -/
def load (db : Datastore) : AccountPtr → Account
  | .parsed acc => acc
  | .canonical n => (db.GetAccount n).2

end AccountPtr

namespace Posting

/-- A write through `p.account`: into the posting's private Account, or into
the registry entry. -/
def storeAccount (p : Posting) (db : Datastore) (acc : Account) : Datastore × Posting :=
  match p.account with
  | .parsed _ => (db, { p with account := .parsed acc })
  | .canonical _ => (db.putAccount acc, p)

/-- Go `p.isCredit()`. -/
def isCredit (p : Posting) : Except Fault Bool :=
  match p.commodity with
  | none => .error .impossibleSituation
  | some commodity => .ok (decide (commodity.amount < 0))

/-- Go `p.isDebit()`. -/
def isDebit (p : Posting) : Except Fault Bool :=
  match p.isCredit with
  | .error f => .error f
  | .ok b => .ok (!b)

/-- The statement `price.amount /= quantity` followed by
`return price.makeSimilar(quantity * price.amount)` of `getCostprice`;
gives the price node after the statement and the returned commodity.  The
quotient of a decimal by zero is not a decimal: `divideByZero`. -/
def valuation (price : Commodity) (quantity : ℚ) : Except Fault (Commodity × Commodity) :=
  if price.isTotal then
    if quantity = 0 then .error .divideByZero
    else
      let price1 : Commodity := { price with amount := price.amount / quantity }
      .ok (price1, price1.makeSimilar (quantity * price1.amount))
  else .ok (price, price.makeSimilar (quantity * price.amount))

/-- Go `p.getCostprice()`: the posting after the call (its price nodes are
written in place) and the returned commodity. -/
def getCostprice (p : Posting) : Except Fault (Posting × Commodity) :=
  match p.isDebit with
  | .error f => .error f
  | .ok debit =>
    match p.commodity with
    | none => .error .nilDereference
    | some commodity =>
      let checkdebit := debit && (commodity.currency == false)
      match checkdebit, p.costprice with
      | true, some costprice =>
        match valuation costprice commodity.amount with
        | .error f => .error f
        | .ok (costprice1, r) => .ok ({ p with costprice := some costprice1 }, r)
      | _, _ =>
        match p.isCredit with
        | .error f => .error f
        | .ok credit =>
          let checkcredit := credit && (commodity.currency == false)
          match checkcredit, p.lotprice with
          | true, some lotprice =>
            match valuation lotprice commodity.amount with
            | .error f => .error f
            | .ok (lotprice1, r) => .ok ({ p with lotprice := some lotprice1 }, r)
          | _, _ => .ok (p, commodity.makeSimilar commodity.amount)

end Posting

namespace Account

/-- Go `acc.Firstpass(db, trans, p)`. -/
def Firstpass (_acc : Account) (_db : Datastore) (_trans : Transaction) (_p : Posting) :
    Option Error := none

/-- Loop of `doTotal` over the segments still to visit, with the `parts`
appended so far. -/
def doTotal.loop (rep : Reporter) (trans : Transaction) (p : Posting) :
    List GoString → List GoString → Datastore → Except Fault (Datastore × Option Error)
  | [], _, db => .ok (db, none)
  | name :: rest, parts, db =>
    let parts := parts ++ [name]
    let fullname := strings.Join parts ':'
    let (db, consacc) := db.GetAccount fullname
    match p.commodity with
    | none => .error .nilDereference
    | some commodity =>
      let consacc := consacc.addBalance commodity
      let db := db.putAccount consacc
      let db := db.record (.bubblePosting p fullname)
      match rep.BubblePosting db trans p consacc with
      | some msg => .ok (db, some (.reporter msg))
      | none => loop rep trans p rest parts db

/-- Go `acc.doTotal(db, trans, p)`; `acc` is read for its name only. -/
def doTotal (rep : Reporter) (acc : AccountPtr) (db : Datastore) (trans : Transaction)
    (p : Posting) : Except Fault (Datastore × Option Error) :=
  let names := SplitAccount acc.name
  doTotal.loop rep trans p names.dropLast [] db

/-- The statements of `Secondpass` after the balance assertion: the reporter
is told of the posting, then `doTotal` bubbles it. -/
def Secondpass.report (rep : Reporter) (acc : AccountPtr) (db : Datastore) (trans : Transaction)
    (p : Posting) : Except Fault (Datastore × Posting × Option Error) :=
  let db := db.record (.posting p)
  match rep.Posting db trans p with
  | some msg => .ok (db, p, some (.reporter msg))
  | none =>
    match doTotal rep acc db trans p with
    | .error f => .error f
    | .ok (db, err) => .ok (db, p, err)

/-- Go `acc.Secondpass(db, trans, p)`; the state after the call is the
datastore and the posting (whose private Account is written when the
posting was never resolved), next to the returned error.  Its one caller,
`Posting.Secondpass`, passes `p.account` as the receiver. -/
def Secondpass (rep : Reporter) (acc : AccountPtr) (db : Datastore) (trans : Transaction)
    (p : Posting) : Except Fault (Datastore × Posting × Option Error) :=
  match p.commodity with
  | none => .error .nilDereference
  | some commodity =>
    let s := p.storeAccount db ((p.account.load db).addBalance commodity)
    let db := s.1
    let p := s.2
    match (p.account.load db).Balance commodity.name with
    | none => .error .nilDereference
    | some balance =>
      match p.balprice with
      | some balprice =>
        if balance.BalanceEqual balprice == false then
          .ok (db, p, some (.balanceMismatch p.account.name balprice balance))
        else Secondpass.report rep acc db trans p
      | none => Secondpass.report rep acc db trans p

end Account

/-- Modelled from the spec: `Commodity.Firstpass` is absent from the sources;
a no-op in this core. -/
def Commodity.Firstpass (_db : Datastore) (_trans : Transaction) (_p : Posting) :
    Option Error := none

namespace Posting

/-- The tail of `Firstpass` once the effective account name is known: the
strict-mode check, the rebinding and the two delegated passes. -/
def Firstpass.bind (p : Posting) (db : Datastore) (trans : Transaction) (accname : GoString) :
    Datastore × Posting × Option Error :=
  if db.IsStrict && (db.HasAccount accname == false) then
    (db, p, some (.notDeclared accname))
  else
    let (db, account) := db.GetAccount accname
    let p := { p with account := .canonical accname }
    match account.Firstpass db trans p with
    | some err => (db, p, some err)
    | none =>
      match Commodity.Firstpass db trans p with
      | some err => (db, p, some err)
      | none => (db, p, none)

/-- Go `p.Firstpass(db, trans)`. -/
def Firstpass (p : Posting) (db : Datastore) (trans : Transaction) :
    Except Fault (Datastore × Posting × Option Error) :=
  let account := p.account.load db
  let accname := account.name
  if account.isUnknown then
    let (daccname, ok) := db.matchpayee trans.Payee
    if ok == false then
      .ok (db, p, some (.noMatchingPayee account.name trans.Payee))
    else
      match sliceTo account.name ((account.name.length : Int) - ("Unknown".toList.length : Int)) with
      | none => .error .sliceBounds
      | some pfx =>
        if strings.HasPrefix daccname pfx == false then
          .ok (db, p, some (.noMatchingPrefix account.name accname))
        else
          match sliceFrom daccname pfx.length with
          | none => .error .sliceBounds
          | some rest => .ok (Firstpass.bind p db trans (pfx ++ rest))
  else
    .ok (Firstpass.bind p db trans (db.applyroot (db.lookupAlias accname)))

end Posting

/-- A name none of whose colon-separated segments is empty. -/
def noEmptySegment (name : GoString) : Prop :=
  ∀ seg ∈ strings.Split name ':', seg ≠ []

/-- The amount an account holds in a symbol: zero when it has no entry. -/
def Account.amountOf (acc : Account) (name : GoString) : ℚ :=
  match acc.Balance name with
  | some balance => balance.amount
  | none => 0

/-- The sum of the amounts of the commodities of a list that bear a symbol. -/
def sumOf (cs : List Commodity) (name : GoString) : ℚ :=
  ((cs.filter (fun c => decide (c.name = name))).map Commodity.amount).sum

/-- Ten dollars. -/
def usd10 : Commodity :=
  { name := "$".toList, amount := 10, currency := true, total := false }

/-- Every balance entry bears the symbol it is filed under. -/
def Account.keyed (acc : Account) : Prop :=
  ∀ name b, acc.Balance name = some b → b.name = name

/-- A posting of the given commodity with the given cost, lot and balance
prices, to a parsed account of the given name. -/
def mkPosting (accname : GoString) (commodity lotprice costprice balprice : Option Commodity) :
    Posting :=
  { trans := { payee := [], metadata := [] },
    account := .parsed { NewAccount accname with balanced := true },
    virtual := false, balanced := true,
    commodity := commodity, lotprice := lotprice, costprice := costprice,
    balprice := balprice, tags := [], metadata := [], note := [] }

/-- A share amount of the non-currency commodity AAPL. -/
def aapl (amount : ℚ) : Commodity :=
  { name := "AAPL".toList, amount := amount, currency := false, total := false }

/-- A dollar price, written per unit or as a total. -/
def usd (amount : ℚ) (total : Bool) : Commodity :=
  { name := "$".toList, amount := amount, currency := true, total := total }

/-- The posting `Assets:Broker  0 AAPL @ $10`. -/
def zeroPosting : Posting :=
  mkPosting "Assets:Broker".toList (some (aapl 0)) none (some (usd 10 false)) none

/-- The posting `Assets:Broker  2 AAPL @@ $30`. -/
def buyPosting : Posting :=
  mkPosting "Assets:Broker".toList (some (aapl 2)) none (some (usd 30 true)) none

/-- The posting `Assets:Broker  -2 AAPL {{$30}}`. -/
def sellPosting : Posting :=
  mkPosting "Assets:Broker".toList (some (aapl (-2))) (some (usd 30 true)) none none

/-- The posting `Assets:Cash  $10`. -/
def cashPosting : Posting :=
  mkPosting "Assets:Cash".toList (some usd10) none none none

/-- The amount the registry entry of an account name holds in a symbol: zero
when there is no such account or no such entry. -/
def Datastore.amountOf (db : Datastore) (accname name : GoString) : ℚ :=
  match db.findAccount accname with
  | some acc => acc.amountOf name
  | none => 0

/-- The full names `doTotal` visits, in order, for the segments still to
visit and the parts appended so far. -/
def bubbleNames : List GoString → List GoString → List GoString
  | [], _ => []
  | name :: rest, parts =>
    strings.Join (parts ++ [name]) ':' :: bubbleNames rest (parts ++ [name])

/-- The proper-prefix ancestors `s1`, `s1:s2`, ..., `s1:..:s(n-1)` of an
account name whose SplitAccount segments are `s1..sn`. -/
def ancestors (name : GoString) : List GoString :=
  (List.range ((SplitAccount name).length - 1)).map
    (fun k => JoinAccounts ((SplitAccount name).take (k + 1)))

/-- How many times a name occurs in a list of names. -/
def occurrences (m : GoString) : List GoString → Nat
  | [] => 0
  | n :: rest => (if m = n then 1 else 0) + occurrences m rest

/-- A datastore with no account, no alias, no root and the one payee rule
`Store` to `Expense:Groceries`. -/
def emptyDb : Datastore :=
  { accntdb := [], strict := false, lookupAlias := fun n => n, applyroot := fun n => n,
    matchpayee := fun payee =>
      if payee = "Store".toList then ("Expense:Groceries".toList, true) else ([], false),
    reported := [] }

/-- A reporter that accepts every call. -/
def quietReporter : Reporter :=
  { Posting := fun _ _ _ => none, BubblePosting := fun _ _ _ _ => none }

/-- The resolved posting `Assets:Cash  $10 = $x`. -/
def assertedPosting (x : ℚ) : Posting :=
  { mkPosting [] (some usd10) none none (some (usd x false)) with
    account := .canonical "Assets:Cash".toList }

/-- The resolved posting `Expense:Food:Grocery  $10`. -/
def groceryPosting : Posting :=
  { mkPosting [] (some usd10) none none none with
    account := .canonical "Expense:Food:Grocery".toList }

/-- The datastore state in which `Secondpass` leaves `emptyDb` after
`groceryPosting`. -/
def groceryAfter : Datastore :=
  { emptyDb with
    accntdb :=
      [{ NewAccount "Expense:Food:Grocery".toList with balance := [("$".toList, usd10)] },
       { NewAccount "Expense".toList with balance := [("$".toList, usd10)] },
       { NewAccount "Expense:Food".toList with balance := [("$".toList, usd10)] }],
    reported :=
      [.posting groceryPosting, .bubblePosting groceryPosting "Expense".toList,
       .bubblePosting groceryPosting "Expense:Food".toList] }

/-- The effective account name of a posting, when it is resolved: for an
Unknown account the name the payee rule gives, provided the rule exists and
its name starts with what precedes `Unknown`; otherwise the parsed name after
alias substitution and root application. -/
def effectiveName (p : Posting) (db : Datastore) (trans : Transaction) : Option GoString :=
  if (p.account.load db).isUnknown then
    if (db.matchpayee trans.Payee).2 = true ∧
        strings.HasPrefix (db.matchpayee trans.Payee).1
          (p.account.name.take (p.account.name.length - "Unknown".toList.length)) = true
    then some (db.matchpayee trans.Payee).1
    else none
  else some (db.applyroot (db.lookupAlias p.account.name))

/-- The parsed posting `Expense:Unknown  $10` of a transaction with the given
payee. -/
def unknownPosting (payee : GoString) : Posting :=
  { mkPosting "Expense:Unknown".toList (some usd10) none none none with
    trans := { payee := payee, metadata := [] } }

/-- The datastore `emptyDb` in strict mode. -/
def strictDb : Datastore := { emptyDb with strict := true }

/-! ## Pointer-level model of the balance map

`Account.balance` is a `map[string]*Commodity`.  The model above gives every
account its own map of Commodity values; what `Clone` is for is that this
is sound, so it is stated on a model with addresses: the heap holds the
Commodity objects and the map objects, each addressed by its position, and
an account holds the address of its map. -/

namespace Mem

/-- The part of the Go heap that balances live in. -/
structure Heap where
  cells : List Commodity
  maps : List (GoMap Nat)

/-- The `Account` struct, its `balance` field being the address of the map. -/
structure Account where
  name : GoString
  virtual : Bool
  balanced : Bool
  hasposting : Bool
  balance : Nat
  notes : List GoString
  aliases : List GoString
  payees : List GoString

namespace Heap

/-- A new Commodity object: the heap and the address of the object. -/
def alloc (h : Heap) (c : Commodity) : Heap × Nat :=
  ({ h with cells := h.cells ++ [c] }, h.cells.length)

/-- A new empty map object: the heap and the address of the map. -/
def newMap (h : Heap) : Heap × Nat :=
  ({ h with maps := h.maps ++ [[]] }, h.maps.length)

/-- Go `*addr = c`. -/
def store (h : Heap) (addr : Nat) (c : Commodity) : Heap :=
  { h with cells := h.cells.set addr c }

/-- Go `v, ok := m[k]` on the map at address `m` (a nil map reads as empty). -/
def getEntry (h : Heap) (m : Nat) (k : GoString) : Option Nat :=
  match h.maps[m]? with
  | none => none
  | some mp => mp.get? k

/-- Go `m[k] = addr` on the map at address `m` (a nil map panics). -/
def setEntry (h : Heap) (m : Nat) (k : GoString) (addr : Nat) : Except Fault Heap :=
  match h.maps[m]? with
  | none => .error .nilDereference
  | some mp => .ok { h with maps := h.maps.set m (mp.set k addr) }

end Heap

/-- Go `NewAccount(name)`: the map is made anew. -/
def NewAccount (h : Heap) (name : GoString) : Heap × Account :=
  (h.newMap.1,
   { name := name, virtual := false, balanced := false, hasposting := false,
     balance := h.newMap.2, notes := [], aliases := [], payees := [] })

/-- Go `acc.Balance(name)`: the Commodity the entry points to. -/
def Balance (h : Heap) (acc : Account) (name : GoString) : Option Commodity :=
  match h.getEntry acc.balance name with
  | none => none
  | some addr => h.cells[addr]?

/-- Go `acc.setOpeningbalance(commodity)`. -/
def setOpeningbalance (h : Heap) (acc : Account) (commodity : Commodity) : Except Fault Heap :=
  let r := h.alloc (commodity.makeSimilar commodity.amount)
  r.1.setEntry acc.balance commodity.name r.2

/-- Go `acc.addBalance(commodity)`. -/
def addBalance (h : Heap) (acc : Account) (commodity : Commodity) : Except Fault Heap :=
  match h.getEntry acc.balance commodity.name with
  | some addr =>
    match h.cells[addr]? with
    | none => .error .nilDereference
    | some balance =>
      (h.store addr { balance with amount := balance.amount + commodity.amount }).setEntry
        acc.balance commodity.name addr
  | none =>
    let r := h.alloc (commodity.makeSimilar commodity.amount)
    r.1.setEntry acc.balance commodity.name r.2

/-- Go `acc.deductBalance(commodity)`. -/
def deductBalance (h : Heap) (acc : Account) (commodity : Commodity) : Except Fault Heap :=
  match h.getEntry acc.balance commodity.name with
  | some addr =>
    match h.cells[addr]? with
    | none => .error .nilDereference
    | some balance =>
      (h.store addr { balance with amount := balance.amount - commodity.amount }).setEntry
        acc.balance commodity.name addr
  | none =>
    let r := h.alloc (commodity.makeSimilar commodity.amount)
    r.1.setEntry acc.balance commodity.name r.2

/-- The loop of `Clone` over the entries of the source map still to visit:
each Commodity is cloned into a new object, filed in the map at `m`. -/
def Clone.loop (m : Nat) : List (GoString × Nat) → Heap → Except Fault Heap
  | [], h => .ok h
  | (name, addr) :: rest, h =>
    match h.cells[addr]? with
    | none => .error .nilDereference
    | some commodity =>
      match (h.alloc commodity.Clone).1.setEntry m name (h.alloc commodity.Clone).2 with
      | .error f => .error f
      | .ok h1 => loop m rest h1

/-- Go `acc.Clone(ndb)`: `nacc := *acc`, a new map, and a clone of every
entry. -/
def Clone (h : Heap) (acc : Account) : Except Fault (Heap × Account) :=
  let entries := (h.maps[acc.balance]?).getD []
  match Clone.loop h.newMap.2 entries h.newMap.1 with
  | .error f => .error f
  | .ok h1 => .ok (h1, { acc with balance := h.newMap.2 })

/-- The three mutators of a balance. -/
inductive Mutation where
  | addBalance (commodity : Commodity)
  | deductBalance (commodity : Commodity)
  | setOpeningbalance (commodity : Commodity)

/-- One mutation applied to an account. -/
def Mutation.run (h : Heap) (acc : Account) : Mutation → Except Fault Heap
  | .addBalance c => Mem.addBalance h acc c
  | .deductBalance c => Mem.deductBalance h acc c
  | .setOpeningbalance c => Mem.setOpeningbalance h acc c

/-- A sequence of mutations, each aimed at the first (`true`) or the second
(`false`) of two accounts. -/
def runAll (a b : Account) : List (Bool × Mutation) → Heap → Except Fault Heap
  | [], h => .ok h
  | (onA, mu) :: rest, h =>
    match mu.run h (if onA then a else b) with
    | .error f => .error f
    | .ok h1 => runAll a b rest h1

/-- The addresses an account's map holds. -/
def addrs (h : Heap) (acc : Account) : List Nat :=
  ((h.maps[acc.balance]?).getD []).map Prod.snd

/-- An account of the heap: its map is allocated, has one entry per key, and
every entry points to an allocated Commodity. -/
def Valid (h : Heap) (acc : Account) : Prop :=
  ∃ mp, h.maps[acc.balance]? = some mp ∧ (mp.map Prod.fst).Nodup ∧
    ∀ e ∈ mp, e.2 < h.cells.length

/-- Two accounts that share neither their map nor any Commodity object. -/
def Separate (h : Heap) (a b : Account) : Prop :=
  Valid h a ∧ Valid h b ∧ a.balance ≠ b.balance ∧ ∀ x ∈ addrs h a, x ∉ addrs h b

/-- A heap with one account holding `$10` and `2 AAPL`. -/
def sampleHeap : Heap :=
  { cells := [usd10, aapl 2], maps := [[("$".toList, 0), ("AAPL".toList, 1)]] }

/-- The account of `sampleHeap`. -/
def sampleAccount : Account :=
  { name := "Assets:Broker".toList, virtual := false, balanced := true, hasposting := true,
    balance := 0, notes := [], aliases := [], payees := [] }

/-- What a mutation of account `acc` may do to the heap: the heap only grows,
no map but the account's own is written, no Commodity object is written but
those the account's map held, and the account's map ends up holding
addresses it held already or addresses of new objects. -/
def Step (h : Heap) (acc : Account) (h1 : Heap) : Prop :=
  h.cells.length ≤ h1.cells.length ∧
  h1.maps.length = h.maps.length ∧
  (∀ m, m ≠ acc.balance → h1.maps[m]? = h.maps[m]?) ∧
  (∀ addr, addr < h.cells.length → addr ∉ addrs h acc → h1.cells[addr]? = h.cells[addr]?) ∧
  Valid h1 acc ∧
  (∀ x ∈ addrs h1 acc, x ∈ addrs h acc ∨ h.cells.length ≤ x)

end Mem

/-- The posting `Assets:Broker  1 AAPL @@ $30`. -/
def onePosting : Posting :=
  mkPosting "Assets:Broker".toList (some (aapl 1)) none (some (usd 30 true)) none

/-- The posting `Assets:Broker  0 AAPL @@ $30`. -/
def zeroTotalPosting : Posting :=
  mkPosting "Assets:Broker".toList (some (aapl 0)) none (some (usd 30 true)) none

/-- Go `sort.Strings(keys)`: the keys in increasing order, strings being
compared byte by byte, a proper initial part before its extensions (the order
of `List Char`).  Equal strings are the same string, so the sorted
arrangement does not depend on the sorting algorithm. -/
def sortStrings (keys : List GoString) : List GoString :=
  keys.insertionSort (fun a b => a ≤ b)

/-- Go `acc.Balances()`; an element is `acc.balance[key]`, nil (`none`) were
the key missing. -/
def Account.Balances (acc : Account) : List (Option Commodity) :=
  let keys := acc.balance.map Prod.fst
  let keys := sortStrings keys
  keys.map (fun key => acc.balance.get? key)

/-- An account holding `2 AAPL` and `$10`, entered in that order. -/
def brokerAccount : Account :=
  { NewAccount "Assets:Broker".toList with
    balance := [("AAPL".toList, aapl 2), ("$".toList, usd10)] }

/-! ## The posting grammar (posting.go, `Yledger`) -/

/-- Go constant `PostUncleared`. -/
def PostUncleared : GoString := "uncleared".toList

/-- Go constant `PostCleared`. -/
def PostCleared : GoString := "cleared".toList

/-- Go constant `PostPending`. -/
def PostPending : GoString := "pending".toList

/-- Go `prefix2state[r]`: a rune that is no key of the map gives the zero
value, the empty string. -/
def prefix2state (r : Char) : GoString :=
  if r = '*' then PostCleared else if r = '!' then PostPending else []

/-- Modelled from the spec: `trans.getMetadata(key)`, value or absent. -/
def Transaction.getMetadata (trans : Transaction) (key : GoString) : Option GoString :=
  trans.metadata.get? key

/-- Modelled from the spec: the node of the tag grammar, a list of tags and a
map of tagged values. -/
structure Tags where
  tags : List GoString
  tagm : GoMap GoString

/-- The nodes `items[0..7]` that the `yposting` sequence hands to the
callback of `Yledger`: the value of the clearing-state terminal, the Account
of `Ypostaccn`, the Commodity nodes and the value of the note terminal, an
optional node being `none` when the parser gave `maybenode`.  The lot date
`items[4]` is left out with the field it is stored in. -/
structure PostingItems where
  pfx : Option GoString
  account : Account
  commodity : Option Commodity
  lotprice : Option Commodity
  costprice : Option Commodity
  balprice : Option Commodity
  note : Option GoString

/-- The `error` values the callback of `Yledger` returns as its node. -/
inductive ParseError where
  | lotpriceCurrency
  | costpriceCurrency
  | balanceCommodity (balance posting : GoString)
  deriving DecidableEq

/-- The node returned by the callback of `Yledger` on a posting line. -/
inductive ParsecNode where
  | error (e : ParseError)
  | posting (p : Posting)
  deriving DecidableEq

namespace Posting

/-- Go `p.getMetadata(key)`. -/
def getMetadata (p : Posting) (key : GoString) : Option GoString :=
  match p.metadata.get? key with
  | some value => some value
  | none => p.trans.getMetadata key

/-- Go `p.setMetadata(key, value)`. -/
def setMetadata (p : Posting) (key value : GoString) : Posting :=
  { p with metadata := p.metadata.set key value }

/-- Go `p.getState()`. -/
def getState (p : Posting) : GoString :=
  match p.getMetadata "state".toList with
  | none => []
  | some state => state

/-- Go `p.fixaccount(db, item)`. -/
def fixaccount (item : Account) : Account × Bool × Bool :=
  (item, item.virtual, item.balanced)

/-- Go `p.fixcommodity(db, item)`; `getCommodity` stands for
`db.getCommodity(symbol, sample)`, which gives the canonical Commodity. -/
def fixcommodity (getCommodity : GoString → Commodity → Commodity) (item : Option Commodity) :
    Option Commodity :=
  match item with
  | some commodity => some ((getCommodity commodity.name commodity).makeSimilar commodity.amount)
  | none => none

/-- Go `p.fixlotprice(item)`. -/
def fixlotprice (item : Option Commodity) : Option Commodity := item

/-- Go `p.fixcostprice(item)`. -/
def fixcostprice (item : Option Commodity) : Option Commodity := item

/-- Go `p.fixbalprice(item)`. -/
def fixbalprice (item : Option Commodity) : Option Commodity := item

/-- The statements of the callback on the note terminal: a note the tag
grammar does not parse is kept as the note, else its tags are appended and
its tagged values filed in the metadata.  `parseTags` stands for the tag
grammar run on the note. -/
def Yledger.note (parseTags : GoString → Option Tags) (p : Posting) (item : Option GoString) :
    Posting :=
  match item with
  | none => p
  | some note =>
    match parseTags note with
    | none => { p with note := note }
    | some tag =>
      tag.tagm.foldl (fun q kv => q.setMetadata kv.1 kv.2) { p with tags := p.tags ++ tag.tags }

/-- The callback of `Yledger` on the nodes of a posting line.  `lotprice`
and `costprice` are the Commodity objects the closure made for
`Ylotprice` and `Ycostprice` to fill, as they are after the parse. -/
def Yledger (getCommodity : GoString → Commodity → Commodity)
    (parseTags : GoString → Option Tags) (lotprice costprice : Commodity)
    (p : Posting) (items : PostingItems) : Except Fault ParsecNode :=
  let stated : Option Posting :=
    match items.pfx with
    | none => some p
    | some [] => none
    | some (r :: _) => some (p.setMetadata "state".toList (prefix2state r))
  match stated with
  | none => .error .sliceBounds
  | some p =>
    let p := { p with
      account := .parsed (fixaccount items.account).1,
      virtual := (fixaccount items.account).2.1,
      balanced := (fixaccount items.account).2.2 }
    let p := { p with commodity := fixcommodity getCommodity items.commodity }
    let p := { p with lotprice := fixlotprice items.lotprice }
    let p := { p with costprice := fixcostprice items.costprice }
    let p := { p with balprice := fixbalprice items.balprice }
    if p.lotprice.isSome && (lotprice.currency == false) then
      .ok (.error .lotpriceCurrency)
    else if p.costprice.isSome && (costprice.currency == false) then
      .ok (.error .costpriceCurrency)
    else
      match p.balprice, p.commodity with
      | some x, some y =>
        if x.name ≠ y.name then .ok (.error (.balanceCommodity x.name y.name))
        else .ok (.posting (Yledger.note parseTags p items.note))
      | _, _ => .ok (.posting (Yledger.note parseTags p items.note))

end Posting

/-- A tag grammar that reads the note `; state: void` as the tagged value
`state` = `void` and no other note as tags. -/
def sampleTags (note : GoString) : Option Tags :=
  if note = "; state: void".toList then
    some { tags := [], tagm := [("state".toList, "void".toList)] }
  else none

/-- A posting as `NewPosting` leaves its tags, metadata and note, in a
transaction without metadata. -/
def blankPosting : Posting := mkPosting [] none none none none

/-- The nodes of the line `Assets:Cash  $10` with the given clearing-state
terminal and note. -/
def cashItems (pfx note : Option GoString) : PostingItems :=
  { pfx := pfx, account := { NewAccount "Assets:Cash".toList with balanced := true },
    commodity := some usd10, lotprice := none, costprice := none, balprice := none,
    note := note }

/-- The nodes of the line `Assets:Broker  2 AAPL {$x} = 2 AAPL`: a lot price
and a balance assertion in the posting's symbol. -/
def lotItems (lot : Commodity) : PostingItems :=
  { pfx := some "*".toList, account := { NewAccount "Assets:Broker".toList with balanced := true },
    commodity := some (aapl 2), lotprice := some lot, costprice := none,
    balprice := some (aapl 2), note := none }

/-- One round of the loop of `doTotal` on an ancestor name, up to the call of
the Reporter: the ancestor is fetched or created, credited and the call
recorded. -/
def bubbleStep (p : Posting) (c : Commodity) (db : Datastore) (fullname : GoString) :
    Datastore :=
  ((db.GetAccount fullname).1.putAccount ((db.GetAccount fullname).2.addBalance c)).record
    (.bubblePosting p fullname)

/-- The rounds of `doTotal` on a list of ancestor names, one after the other. -/
def bubbleThrough (p : Posting) (c : Commodity) (db : Datastore) (names : List GoString) :
    Datastore :=
  names.foldl (bubbleStep p c) db

/-- The Reporter's BubblePosting fails at ancestor number `j + 1` of `names`
with the message `msg`: called in turn on each ancestor as `doTotal` leaves
it, it answers nil on the first `j` ancestors and the error on the next. -/
def bubbleFailsAt (rep : Reporter) (trans : Transaction) (p : Posting) (c : Commodity)
    (db : Datastore) (names : List GoString) (j : Nat) (msg : GoString) : Prop :=
  j < names.length ∧
  (∀ i, i < j →
    rep.BubblePosting (bubbleThrough p c db (names.take (i + 1))) trans p
      (((bubbleThrough p c db (names.take i)).GetAccount (names.getD i [])).2.addBalance c)
      = none) ∧
  rep.BubblePosting (bubbleThrough p c db (names.take (j + 1))) trans p
      (((bubbleThrough p c db (names.take j)).GetAccount (names.getD j [])).2.addBalance c)
      = some msg

/-- A reporter whose BubblePosting fails on the account `Expense:Food` and
accepts every other call. -/
def foodReporter : Reporter :=
  { Posting := fun _ _ _ => none,
    BubblePosting := fun _ _ _ acc =>
      if acc.name = "Expense:Food".toList then some "no report".toList else none }

/-- The resolved posting `Expense:Food:Fruit:Apple  $10`. -/
def applePosting : Posting :=
  { mkPosting [] (some usd10) none none none with
    account := .canonical "Expense:Food:Fruit:Apple".toList }

/-- The state after the first statement of `Secondpass`,
`p.account.addBalance(p.commodity)`: the datastore and the posting. -/
def afterAddition (p : Posting) (db : Datastore) (c : Commodity) : Datastore × Posting :=
  p.storeAccount db ((p.account.load db).addBalance c)

/-- The posting `Assets:Broker  2 AAPL @@ $0`. -/
def freePosting : Posting :=
  mkPosting "Assets:Broker".toList (some (aapl 2)) none (some (usd 0 true)) none

/-! # Properties -/

/-! ## Strings: split and join -/

theorem Split_ne_nil (s : GoString) (c : Char) : strings.Split s c ≠ [] := by
  induction s with
  | nil => simp [strings.Split]
  | cons x xs ih =>
    unfold strings.Split
    split
    · simp
    · split <;> simp

theorem Join_Split (s : GoString) (c : Char) : strings.Join (strings.Split s c) c = s := by
  induction s with
  | nil => simp [strings.Split, strings.Join]
  | cons x xs ih =>
    unfold strings.Split
    by_cases hx : x = c
    · simp only [hx, if_true]
      cases hsp : strings.Split xs c with
      | nil => exact absurd hsp (Split_ne_nil xs c)
      | cons seg rest =>
        rw [hsp] at ih
        simp [strings.Join, ih]
    · simp only [hx, if_false]
      cases hsp : strings.Split xs c with
      | nil => exact absurd hsp (Split_ne_nil xs c)
      | cons seg rest =>
        rw [hsp] at ih
        cases rest with
        | nil => simpa [strings.Join] using ih
        | cons seg2 rest2 =>
          simp only [strings.Join] at ih ⊢
          simp [ih]

theorem Split_append_sep (s : GoString) (c : Char) :
    strings.Split (s ++ [c]) c = strings.Split s c ++ [[]] := by
  induction s with
  | nil => simp [strings.Split]
  | cons x xs ih =>
    simp only [List.cons_append, strings.Split]
    by_cases hx : x = c
    · simp [hx, ih]
    · simp only [hx, if_false]
      have e : xs.append [c] = xs ++ [c] := rfl
      rw [e, ih]
      cases hsp : strings.Split xs c with
      | nil => exact absurd hsp (Split_ne_nil xs c)
      | cons seg rest => simp

theorem TrimLeft_eq_self (s : GoString) (c : Char) (h : ∀ xs, s ≠ c :: xs) :
    strings.TrimLeft s c = s := by
  cases s with
  | nil => rfl
  | cons x xs =>
    have hx : (x == c) = false := by
      simp only [beq_eq_false_iff_ne]
      exact fun e => h xs (by rw [e])
    simp [strings.TrimLeft, List.dropWhile, hx]

theorem TrimRight_eq_self (s : GoString) (c : Char) (h : ∀ xs, s ≠ xs ++ [c]) :
    strings.TrimRight s c = s := by
  unfold strings.TrimRight
  cases hr : s.reverse with
  | nil => simp_all
  | cons x xs =>
    have hs : s = xs.reverse ++ [x] := by
      have := congrArg List.reverse hr
      simpa using this
    have hx : (x == c) = false := by
      simp only [beq_eq_false_iff_ne]
      exact fun e => h xs.reverse (by rw [hs, e])
    simp [List.dropWhile, hx, hs]

/-- C8: for every account name, JoinAccounts(SplitAccount(name)) is the name
with its leading and trailing colons trimmed; and for every colon path with
no empty segment it is the name itself. -/
theorem JoinAccounts_SplitAccount (name : GoString) :
    JoinAccounts (SplitAccount name) = strings.Trim name ':' ∧
    (noEmptySegment name → JoinAccounts (SplitAccount name) = name) := by
  have h1 : JoinAccounts (SplitAccount name) = strings.Trim name ':' :=
    Join_Split _ _
  refine ⟨h1, fun hne => ?_⟩
  rw [h1]
  have hl : ∀ xs, name ≠ ':' :: xs := by
    intro xs e
    refine hne [] ?_ rfl
    rw [e]
    simp [strings.Split]
  have hr : ∀ xs, name ≠ xs ++ [':'] := by
    intro xs e
    refine hne [] ?_ rfl
    rw [e, Split_append_sep]
    simp
  unfold strings.Trim
  rw [TrimLeft_eq_self name ':' hl, TrimRight_eq_self name ':' hr]

theorem JoinAccounts_SplitAccount_witness :
    JoinAccounts (SplitAccount ":Expense:Food:".toList) = "Expense:Food".toList ∧
    JoinAccounts (SplitAccount "Expense:Food".toList) = "Expense:Food".toList :=
  ⟨(JoinAccounts_SplitAccount ":Expense:Food:".toList).1,
   (JoinAccounts_SplitAccount "Expense:Food".toList).2 (by unfold noEmptySegment; decide)⟩

/-! ## Balance maps -/

theorem GoMap.get?_set_self {V : Type} (m : GoMap V) (k : GoString) (v : V) :
    (m.set k v).get? k = some v := by
  induction m with
  | nil => simp [GoMap.set, GoMap.get?]
  | cons e rest ih =>
    obtain ⟨k1, v1⟩ := e
    by_cases h : k1 = k
    · simp [GoMap.set, GoMap.get?, h]
    · simp [GoMap.set, GoMap.get?, h, ih]

theorem GoMap.get?_set_other {V : Type} (m : GoMap V) (k k2 : GoString) (v : V)
    (hk : k2 ≠ k) : (m.set k v).get? k2 = m.get? k2 := by
  induction m with
  | nil => simp [GoMap.set, GoMap.get?, Ne.symm hk]
  | cons e rest ih =>
    obtain ⟨k1, v1⟩ := e
    by_cases h : k1 = k
    · have h2 : ¬ k1 = k2 := fun e => hk (by rw [← e, h])
      simp [GoMap.set, GoMap.get?, h, h2, Ne.symm hk]
    · by_cases h2 : k1 = k2
      · subst h2
        simp [GoMap.set, GoMap.get?, h]
      · simp [GoMap.set, GoMap.get?, h, h2, ih]

theorem Balance_addBalance_self (acc : Account) (c : Commodity) :
    (acc.addBalance c).Balance c.name =
      match acc.Balance c.name with
      | some b => some { b with amount := b.amount + c.amount }
      | none => some (c.makeSimilar c.amount) := by
  unfold Account.addBalance Account.Balance
  cases h : acc.balance.get? c.name <;> simp [GoMap.get?_set_self]

theorem Balance_addBalance_other (acc : Account) (c : Commodity) (name : GoString)
    (h : name ≠ c.name) : (acc.addBalance c).Balance name = acc.Balance name := by
  unfold Account.addBalance Account.Balance
  cases acc.balance.get? c.name <;> simp [GoMap.get?_set_other _ _ _ _ h]

theorem Balance_deductBalance_self (acc : Account) (c : Commodity) :
    (acc.deductBalance c).Balance c.name =
      match acc.Balance c.name with
      | some b => some { b with amount := b.amount - c.amount }
      | none => some (c.makeSimilar c.amount) := by
  unfold Account.deductBalance Account.Balance
  cases h : acc.balance.get? c.name <;> simp [GoMap.get?_set_self]

theorem Balance_deductBalance_other (acc : Account) (c : Commodity) (name : GoString)
    (h : name ≠ c.name) : (acc.deductBalance c).Balance name = acc.Balance name := by
  unfold Account.deductBalance Account.Balance
  cases acc.balance.get? c.name <;> simp [GoMap.get?_set_other _ _ _ _ h]

theorem amountOf_addBalance (acc : Account) (c : Commodity) (name : GoString) :
    (acc.addBalance c).amountOf name =
      acc.amountOf name + (if c.name = name then c.amount else 0) := by
  unfold Account.amountOf
  by_cases h : c.name = name
  · subst h
    rw [Balance_addBalance_self]
    cases acc.Balance c.name <;> simp [Commodity.makeSimilar]
  · rw [Balance_addBalance_other _ _ _ (Ne.symm h)]
    simp [h]

theorem keyed_addBalance (acc : Account) (c : Commodity) (h : acc.keyed) :
    (acc.addBalance c).keyed := by
  intro name b hb
  by_cases hn : name = c.name
  · subst hn
    rw [Balance_addBalance_self] at hb
    cases hacc : acc.Balance c.name with
    | none =>
      rw [hacc] at hb
      simp only [Option.some.injEq] at hb
      rw [← hb]; rfl
    | some b0 =>
      rw [hacc] at hb
      simp only [Option.some.injEq] at hb
      rw [← hb]
      exact h c.name b0 hacc
  · rw [Balance_addBalance_other _ _ _ hn] at hb
    exact h _ _ hb

theorem foldl_addBalance_keyed (cs : List Commodity) (acc : Account) (h : acc.keyed) :
    (cs.foldl Account.addBalance acc).keyed := by
  induction cs generalizing acc with
  | nil => exact h
  | cons c cs ih => exact ih _ (keyed_addBalance acc c h)

theorem foldl_addBalance_isSome (cs : List Commodity) (acc : Account) (name : GoString) :
    ((cs.foldl Account.addBalance acc).Balance name).isSome =
      ((acc.Balance name).isSome || cs.any (fun c => decide (c.name = name))) := by
  induction cs generalizing acc with
  | nil => simp
  | cons c cs ih =>
    rw [List.foldl_cons, ih]
    by_cases h : c.name = name
    · subst h
      rw [Balance_addBalance_self]
      cases acc.Balance c.name <;> simp
    · rw [Balance_addBalance_other _ _ _ (Ne.symm h)]
      simp [h]

theorem foldl_addBalance_amountOf (cs : List Commodity) (acc : Account) (name : GoString) :
    (cs.foldl Account.addBalance acc).amountOf name = acc.amountOf name + sumOf cs name := by
  induction cs generalizing acc with
  | nil => simp [sumOf]
  | cons c cs ih =>
    rw [List.foldl_cons, ih, amountOf_addBalance]
    by_cases h : c.name = name
    · simp [sumOf, List.filter_cons, h, add_assoc]
    · simp [sumOf, List.filter_cons, h]

/-- C3: after any finite sequence of commodities is applied with addBalance to
a freshly created account, the balance entry of each symbol S is a commodity
of symbol S whose amount is the sum of the amounts of the commodities of the
sequence that bear S, and a symbol that never occurs has no entry. -/
theorem addBalance_sequence (accname : GoString) (cs : List Commodity) (name : GoString) :
    ((cs.foldl Account.addBalance (NewAccount accname)).Balance name).map
        (fun b => (b.name, b.amount)) =
      if cs.any (fun c => decide (c.name = name)) then some (name, sumOf cs name)
      else none := by
  have hk := foldl_addBalance_keyed cs (NewAccount accname) (by
    intro n b hb
    simp [Account.Balance, NewAccount, GoMap.get?] at hb)
  have hs := foldl_addBalance_isSome cs (NewAccount accname) name
  have ha := foldl_addBalance_amountOf cs (NewAccount accname) name
  have h0 : (NewAccount accname).Balance name = none := rfl
  rw [h0] at hs
  simp only [Option.isSome_none, Bool.false_or] at hs
  have h00 : (NewAccount accname).amountOf name = 0 := rfl
  rw [h00, zero_add] at ha
  rw [← hs]
  cases hb : (cs.foldl Account.addBalance (NewAccount accname)).Balance name with
  | none => simp
  | some b =>
    have hn := hk _ _ hb
    unfold Account.amountOf at ha
    rw [hb] at ha
    simp only at ha
    simp only [Option.isSome_some, if_true, Option.map_some', Option.some.injEq]
    rw [hn, ha]

theorem amountOf_deductBalance_of_entry (acc : Account) (c : Commodity) (name : GoString)
    (b : Commodity) (hb : acc.Balance c.name = some b) :
    (acc.deductBalance c).amountOf name =
      acc.amountOf name - (if c.name = name then c.amount else 0) := by
  unfold Account.amountOf
  by_cases h : c.name = name
  · subst h
    rw [Balance_deductBalance_self, hb]
    simp
  · rw [Balance_deductBalance_other _ _ _ (Ne.symm h)]
    simp [h]

/-- In the other order the two do cancel: addBalance then deductBalance of
one commodity restores every amount. -/
theorem addBalance_deductBalance_amountOf (acc : Account) (c : Commodity) (name : GoString) :
    ((acc.addBalance c).deductBalance c).amountOf name = acc.amountOf name := by
  have hb : ∃ b, (acc.addBalance c).Balance c.name = some b := by
    rw [Balance_addBalance_self]
    cases acc.Balance c.name <;> simp
  obtain ⟨b, hb⟩ := hb
  rw [amountOf_deductBalance_of_entry _ c name b hb, amountOf_addBalance]
  ring

/-- C4 at the failing input: on an account without an entry for `$`,
deductBalance of ten dollars followed by addBalance of the same ten dollars
leaves a balance of twenty dollars, where the account had none before. -/
theorem deductBalance_addBalance_fresh :
    (NewAccount []).amountOf usd10.name = 0 ∧
    (((NewAccount []).deductBalance usd10).addBalance usd10).amountOf usd10.name = 20 ∧
    ((NewAccount []).deductBalance usd10).amountOf usd10.name = 10 := by
  refine ⟨rfl, ?_, ?_⟩
  · rw [amountOf_addBalance]
    unfold Account.amountOf
    rw [Balance_deductBalance_self]
    norm_num [Account.Balance, NewAccount, GoMap.get?, Commodity.makeSimilar, usd10]
  · unfold Account.amountOf
    rw [Balance_deductBalance_self]
    norm_num [Account.Balance, NewAccount, GoMap.get?, Commodity.makeSimilar, usd10]

/-! ## getCostprice -/

theorem makeSimilar_self (c : Commodity) : c.makeSimilar c.amount = c := rfl

theorem valuation_ok (price : Commodity) (q : ℚ) (h : price.total = true → q ≠ 0) :
    Posting.valuation price q =
      .ok (if price.total then { price with amount := price.amount / q } else price,
        price.makeSimilar (q * (if price.total then price.amount / q else price.amount))) := by
  unfold Posting.valuation Commodity.isTotal
  cases ht : price.total with
  | false => simp
  | true => simp [h ht, ht, Commodity.makeSimilar]

/-- C7 as stated fails for a zero amount: `0 AAPL @ $10` is neither a positive
nor a negative amount, yet getCostprice answers in dollars, not in AAPL. -/
theorem getCostprice_zero_amount :
    zeroPosting.commodity = some (aapl 0) ∧ ¬ (0 < (aapl 0).amount) ∧ ¬ ((aapl 0).amount < 0) ∧
    zeroPosting.getCostprice = .ok (zeroPosting, usd 0 false) ∧
    (usd 0 false).name ≠ (aapl 0).name := by
  refine ⟨rfl, by simp [aapl], by simp [aapl], ?_, by decide⟩
  simp [Posting.getCostprice, Posting.isDebit, Posting.isCredit, zeroPosting, mkPosting,
    Posting.valuation, Commodity.isTotal, Commodity.makeSimilar, aapl, usd]

/-- C7, amended: for every posting with a bound commodity of quantity q,
(1) if q is not negative, the commodity is not a currency and a cost price is
present (with q non-zero when the price is a total), getCostprice returns a
commodity in the cost price's symbol with amount q times the per-unit cost
price, the cost price divided by q first when it is a total; (2) if q is
negative, the commodity is not a currency and a lot price is present, the same
with the lot price; (3) in every other case it returns the posting's own
commodity and leaves the posting as it is. -/
theorem getCostprice_cases (p : Posting) (c : Commodity) (hc : p.commodity = some c) :
    (∀ cp, 0 ≤ c.amount → c.currency = false → p.costprice = some cp →
      (cp.total = true → c.amount ≠ 0) →
      ∃ p1 r, p.getCostprice = .ok (p1, r) ∧ r.name = cp.name ∧
        r.amount = c.amount * (if cp.total then cp.amount / c.amount else cp.amount)) ∧
    (∀ lp, c.amount < 0 → c.currency = false → p.lotprice = some lp →
      ∃ p1 r, p.getCostprice = .ok (p1, r) ∧ r.name = lp.name ∧
        r.amount = c.amount * (if lp.total then lp.amount / c.amount else lp.amount)) ∧
    ((c.currency = true ∨ (0 ≤ c.amount ∧ p.costprice = none) ∨
        (c.amount < 0 ∧ p.lotprice = none)) →
      p.getCostprice = .ok (p, c)) := by
  refine ⟨?_, ?_, ?_⟩
  · intro cp hq hcur hcp hz
    have hnlt : ¬ c.amount < 0 := not_lt.mpr hq
    refine ⟨{ p with costprice := some (if cp.total then
        { cp with amount := cp.amount / c.amount } else cp) },
      cp.makeSimilar (c.amount * (if cp.total then cp.amount / c.amount else cp.amount)),
      ?_, rfl, rfl⟩
    simp [Posting.getCostprice, Posting.isDebit, Posting.isCredit, hc, hcp, hcur, hnlt,
      valuation_ok cp c.amount hz]
  · intro lp hq hcur hlp
    have hne : lp.total = true → c.amount ≠ 0 := fun _ => ne_of_lt hq
    refine ⟨{ p with lotprice := some (if lp.total then
        { lp with amount := lp.amount / c.amount } else lp) },
      lp.makeSimilar (c.amount * (if lp.total then lp.amount / c.amount else lp.amount)),
      ?_, rfl, rfl⟩
    simp [Posting.getCostprice, Posting.isDebit, Posting.isCredit, hc, hlp, hcur, hq,
      valuation_ok lp c.amount hne]
  · intro h
    rcases h with hcur | ⟨hq, hcp⟩ | ⟨hq, hlp⟩
    · simp [Posting.getCostprice, Posting.isDebit, Posting.isCredit, hc, hcur, makeSimilar_self]
    · have hnlt : ¬ c.amount < 0 := not_lt.mpr hq
      simp [Posting.getCostprice, Posting.isDebit, Posting.isCredit, hc, hcp, hnlt,
        makeSimilar_self]
    · cases hcur : c.currency <;>
        simp [Posting.getCostprice, Posting.isDebit, Posting.isCredit, hc, hlp, hq, hcur,
          makeSimilar_self]

theorem getCostprice_cases_witness :
    (∃ p1 r, buyPosting.getCostprice = .ok (p1, r) ∧ r.name = (usd 30 true).name ∧
      r.amount = (aapl 2).amount *
        (if (usd 30 true).total then (usd 30 true).amount / (aapl 2).amount
         else (usd 30 true).amount)) ∧
    (∃ p1 r, sellPosting.getCostprice = .ok (p1, r) ∧ r.name = (usd 30 true).name ∧
      r.amount = (aapl (-2)).amount *
        (if (usd 30 true).total then (usd 30 true).amount / (aapl (-2)).amount
         else (usd 30 true).amount)) ∧
    cashPosting.getCostprice = .ok (cashPosting, usd10) :=
  ⟨(getCostprice_cases buyPosting (aapl 2) rfl).1 (usd 30 true) (by simp [aapl]) rfl rfl
      (by simp [aapl]),
   (getCostprice_cases sellPosting (aapl (-2)) rfl).2.1 (usd 30 true) (by simp [aapl]) rfl rfl,
   (getCostprice_cases cashPosting usd10 rfl).2.2 (Or.inl rfl)⟩

/-! ## FitAccountname -/

/-- C10 at two failing inputs.  `abc:def` is as long as the width 7, and the
result repeats every segment and is 15 bytes long; `Expense:Food:Grocery`
fits the width 15 once cut to `Exp:Foo:Grocery`, and the call panics with a
slice bound out of range. -/
theorem FitAccountname_failing :
    FitAccountname "abc:def".toList 7 = .ok "abc:abc:def:def".toList ∧
    FitAccountname "Expense:Food:Grocery".toList 15 = .error .sliceBounds := by
  constructor <;> rfl

/-! ## The account registry -/

theorem findAccount_name (db : Datastore) (n : GoString) (a : Account)
    (h : db.findAccount n = some a) : a.name = n := by
  unfold Datastore.findAccount at h
  have := List.find?_some h
  simpa using this

theorem find?_putList_self (l : List Account) (a : Account) :
    (Datastore.putList l a).find? (fun x => decide (x.name = a.name)) = some a := by
  induction l with
  | nil => simp [Datastore.putList]
  | cons x rest ih =>
    unfold Datastore.putList
    by_cases h : x.name = a.name
    · simp [h]
    · simp [h, List.find?_cons, ih]

theorem find?_putList_other (l : List Account) (a : Account) (n : GoString)
    (hn : n ≠ a.name) :
    (Datastore.putList l a).find? (fun x => decide (x.name = n)) =
      l.find? (fun x => decide (x.name = n)) := by
  induction l with
  | nil => simp [Datastore.putList, Ne.symm hn]
  | cons x rest ih =>
    unfold Datastore.putList
    by_cases h : x.name = a.name
    · have hx : ¬ x.name = n := fun e => hn (by rw [← e, h])
      simp [h, List.find?_cons, hx, Ne.symm hn]
    · by_cases hx : x.name = n
      · simp [hn, List.find?_cons, hx]
      · simp [h, List.find?_cons, hx, ih]

theorem findAccount_putAccount (db : Datastore) (a : Account) (m : GoString) :
    (db.putAccount a).findAccount m = if m = a.name then some a else db.findAccount m := by
  unfold Datastore.findAccount Datastore.putAccount
  by_cases h : m = a.name
  · subst h
    simp [find?_putList_self]
  · simp [h, find?_putList_other _ _ _ h]

theorem findAccount_record (db : Datastore) (call : ReporterCall) (m : GoString) :
    (db.record call).findAccount m = db.findAccount m := rfl

theorem GetAccount_snd_name (db : Datastore) (n : GoString) : (db.GetAccount n).2.name = n := by
  unfold Datastore.GetAccount
  cases h : db.findAccount n with
  | none => rfl
  | some a => exact findAccount_name db n a h

theorem findAccount_GetAccount (db : Datastore) (n m : GoString) :
    (db.GetAccount n).1.findAccount m =
      if m = n then some (db.GetAccount n).2 else db.findAccount m := by
  unfold Datastore.GetAccount
  cases h : db.findAccount n with
  | some a =>
    by_cases hm : m = n
    · simp [hm, h]
    · simp [hm]
  | none =>
    unfold Datastore.findAccount at h ⊢
    by_cases hm : m = n
    · subst hm
      simp [List.find?_append, h, NewAccount]
    · simp [List.find?_append, hm, NewAccount, Ne.symm hm]

theorem GetAccount_snd_amountOf (db : Datastore) (n name : GoString) :
    (db.GetAccount n).2.amountOf name = db.amountOf n name := by
  unfold Datastore.GetAccount Datastore.amountOf
  cases h : db.findAccount n with
  | none => rfl
  | some a => rfl

theorem addBalance_name (acc : Account) (c : Commodity) : (acc.addBalance c).name = acc.name := by
  unfold Account.addBalance
  cases acc.balance.get? c.name <;> rfl

/-- One step of bubbling: the registry after `GetAccount(n)`, `addBalance(c)`
on the result and the recording of the reporter call. -/
theorem findAccount_bubble (db : Datastore) (n m : GoString) (c : Commodity)
    (call : ReporterCall) :
    ((((db.GetAccount n).1.putAccount ((db.GetAccount n).2.addBalance c)).record
        call).findAccount m) =
      if m = n then some ((db.GetAccount n).2.addBalance c) else db.findAccount m := by
  rw [findAccount_record, findAccount_putAccount, addBalance_name, GetAccount_snd_name]
  by_cases h : m = n
  · simp [h]
  · simp [h, findAccount_GetAccount]

theorem amountOf_bubble (db : Datastore) (n m name : GoString) (c : Commodity)
    (call : ReporterCall) :
    ((((db.GetAccount n).1.putAccount ((db.GetAccount n).2.addBalance c)).record
        call).amountOf m name) =
      db.amountOf m name + (if m = n ∧ c.name = name then c.amount else 0) := by
  unfold Datastore.amountOf
  rw [findAccount_bubble]
  by_cases h : m = n
  · subst h
    simp only [if_true, true_and]
    rw [amountOf_addBalance, GetAccount_snd_amountOf]
    rfl
  · simp [h]

/-! ## Bubbling (doTotal) -/

theorem doTotal_loop_cons (rep : Reporter) (trans : Transaction) (p : Posting) (c : Commodity)
    (hc : p.commodity = some c) (name : GoString) (rest parts : List GoString)
    (db : Datastore) :
    Account.doTotal.loop rep trans p (name :: rest) parts db =
      match rep.BubblePosting
          (((db.GetAccount (strings.Join (parts ++ [name]) ':')).1.putAccount
            ((db.GetAccount (strings.Join (parts ++ [name]) ':')).2.addBalance c)).record
            (.bubblePosting p (strings.Join (parts ++ [name]) ':')))
          trans p ((db.GetAccount (strings.Join (parts ++ [name]) ':')).2.addBalance c) with
      | some msg =>
        .ok ((((db.GetAccount (strings.Join (parts ++ [name]) ':')).1.putAccount
            ((db.GetAccount (strings.Join (parts ++ [name]) ':')).2.addBalance c)).record
            (.bubblePosting p (strings.Join (parts ++ [name]) ':'))), some (.reporter msg))
      | none =>
        Account.doTotal.loop rep trans p rest (parts ++ [name])
          (((db.GetAccount (strings.Join (parts ++ [name]) ':')).1.putAccount
            ((db.GetAccount (strings.Join (parts ++ [name]) ':')).2.addBalance c)).record
            (.bubblePosting p (strings.Join (parts ++ [name]) ':'))) := by
  rw [Account.doTotal.loop]
  simp only [hc]

/-- The bubbling loop always returns; it stops after `k` of the names it was
to visit, with `k` all of them unless the reporter failed; the accounts of
the visited names hold the commodity once more per visit, every other
account is as before, and the reporter saw the visited names in order. -/
theorem doTotal_loop_spec (rep : Reporter) (trans : Transaction) (p : Posting) (c : Commodity)
    (hc : p.commodity = some c) (segs parts : List GoString) (db : Datastore) :
    ∃ db1 err k,
      Account.doTotal.loop rep trans p segs parts db = .ok (db1, err) ∧
      k ≤ segs.length ∧
      (err = none → k = segs.length) ∧
      (∀ e, err = some e → ∃ msg, e = .reporter msg) ∧
      (∀ m, m ∉ (bubbleNames segs parts).take k → db1.findAccount m = db.findAccount m) ∧
      (∀ m name, db1.amountOf m name = db.amountOf m name +
        (if c.name = name then (occurrences m ((bubbleNames segs parts).take k) : ℚ) * c.amount
         else 0)) ∧
      db1.reported = db.reported ++
        ((bubbleNames segs parts).take k).map (fun n => ReporterCall.bubblePosting p n) := by
  induction segs generalizing parts db with
  | nil =>
    refine ⟨db, none, 0, ?_, le_refl _, fun _ => rfl, ?_, fun _ _ => rfl, ?_, ?_⟩
    · rw [Account.doTotal.loop]
    · intro e he; cases he
    · intro m name; simp [bubbleNames, occurrences]
    · simp [bubbleNames]
  | cons seg rest ih =>
    rw [doTotal_loop_cons rep trans p c hc]
    cases hrep : rep.BubblePosting
          (((db.GetAccount (strings.Join (parts ++ [seg]) ':')).1.putAccount
            ((db.GetAccount (strings.Join (parts ++ [seg]) ':')).2.addBalance c)).record
            (.bubblePosting p (strings.Join (parts ++ [seg]) ':')))
          trans p ((db.GetAccount (strings.Join (parts ++ [seg]) ':')).2.addBalance c) with
    | some msg =>
      refine ⟨_, _, 1, rfl, ?_, ?_, ?_, ?_, ?_, ?_⟩
      · simp
      · intro h; cases h
      · intro e he
        exact ⟨msg, by simpa using he.symm⟩
      · intro m hm
        have hne : m ≠ strings.Join (parts ++ [seg]) ':' := by
          intro e; apply hm; simp [bubbleNames, e]
        rw [findAccount_bubble]; simp [hne]
      · intro m name
        rw [amountOf_bubble]
        by_cases h1 : m = strings.Join (parts ++ [seg]) ':' <;>
          by_cases h2 : c.name = name <;> simp [bubbleNames, occurrences, h1, h2]
      · simp [bubbleNames, Datastore.record, Datastore.putAccount, Datastore.GetAccount]
        cases db.findAccount (strings.Join (parts ++ [seg]) ':') <;> rfl
    | none =>
      obtain ⟨db1, err, k, hrun, hk, hnone, herr, hfind, hamt, hlog⟩ := ih (parts ++ [seg])
        (((db.GetAccount (strings.Join (parts ++ [seg]) ':')).1.putAccount
            ((db.GetAccount (strings.Join (parts ++ [seg]) ':')).2.addBalance c)).record
            (.bubblePosting p (strings.Join (parts ++ [seg]) ':')))
      refine ⟨db1, err, k + 1, hrun, ?_, ?_, herr, ?_, ?_, ?_⟩
      · simpa using hk
      · intro h; simp [hnone h]
      · intro m hm
        have hne : m ≠ strings.Join (parts ++ [seg]) ':' := by
          intro e; apply hm; simp [bubbleNames, e]
        have hm2 : m ∉ (bubbleNames rest (parts ++ [seg])).take k := by
          intro h; apply hm; simp [bubbleNames, h]
        rw [hfind m hm2, findAccount_bubble]; simp [hne]
      · intro m name
        rw [hamt, amountOf_bubble]
        by_cases h1 : m = strings.Join (parts ++ [seg]) ':' <;>
          by_cases h2 : c.name = name <;>
          simp [bubbleNames, h1, h2, occurrences, add_assoc]
        ring
      · rw [hlog]
        simp [bubbleNames, Datastore.record, Datastore.putAccount, Datastore.GetAccount]
        cases db.findAccount (strings.Join (parts ++ [seg]) ':') <;> rfl

/-! ## The names visited by bubbling are the proper-prefix ancestors -/

theorem bubbleNames_eq (segs parts : List GoString) :
    bubbleNames segs parts =
      (List.range segs.length).map (fun k => strings.Join (parts ++ segs.take (k + 1)) ':') := by
  induction segs generalizing parts with
  | nil => simp [bubbleNames]
  | cons seg rest ih =>
    rw [bubbleNames, ih, List.length_cons, List.range_succ_eq_map]
    simp [List.map_map, Function.comp_def]

theorem ancestors_eq_bubbleNames (name : GoString) :
    ancestors name = bubbleNames (SplitAccount name).dropLast [] := by
  rw [bubbleNames_eq, ancestors, List.length_dropLast]
  apply List.map_congr_left
  intro k hk
  have hk2 : k < (SplitAccount name).length - 1 := List.mem_range.mp hk
  simp only [JoinAccounts, List.nil_append]
  rw [List.dropLast_eq_take, List.take_take]
  congr 2
  omega

theorem Join_append (l1 l2 : List GoString) (c : Char) (h1 : l1 ≠ []) (h2 : l2 ≠ []) :
    strings.Join (l1 ++ l2) c = strings.Join l1 c ++ c :: strings.Join l2 c := by
  induction l1 with
  | nil => exact absurd rfl h1
  | cons a rest ih =>
    cases rest with
    | nil =>
      cases l2 with
      | nil => exact absurd rfl h2
      | cons b l2 => simp [strings.Join]
    | cons b rest =>
      have := ih (by simp)
      simp only [List.cons_append] at this ⊢
      simp [strings.Join, this]

theorem length_Join_take_lt (l : List GoString) (c : Char) (k j : Nat) (hkj : k < j)
    (hj : j ≤ l.length) (hk : 0 < k) :
    (strings.Join (l.take k) c).length < (strings.Join (l.take j) c).length := by
  have hsplit : l.take j = l.take k ++ (l.take j).drop k := by
    have := (List.take_append_drop k (l.take j)).symm
    rwa [List.take_take, min_eq_left (le_of_lt hkj)] at this
  have h1 : l.take k ≠ [] := by
    intro h
    have h3 : (l.take k).length = min k l.length := List.length_take _ _
    rw [h, List.length_nil, min_eq_left (by omega)] at h3
    omega
  have h2 : (l.take j).drop k ≠ [] := by
    intro h
    have h3 : ((l.take j).drop k).length = min j l.length - k := by
      rw [List.length_drop, List.length_take]
    rw [h, List.length_nil, min_eq_left hj] at h3
    omega
  rw [hsplit, Join_append _ _ c h1 h2]
  simp

theorem length_Trim_le (s : GoString) (c : Char) : (strings.Trim s c).length ≤ s.length := by
  unfold strings.Trim strings.TrimRight strings.TrimLeft
  rw [List.length_reverse]
  calc (List.dropWhile (fun x => x == c) (List.dropWhile (fun x => x == c) s).reverse).length
      ≤ (List.dropWhile (fun x => x == c) s).reverse.length :=
        (List.dropWhile_sublist _).length_le
    _ = (List.dropWhile (fun x => x == c) s).length := List.length_reverse _
    _ ≤ s.length := (List.dropWhile_sublist _).length_le

theorem mem_ancestors (name m : GoString) :
    m ∈ ancestors name ↔
      ∃ k, k < (SplitAccount name).length - 1 ∧
        m = JoinAccounts ((SplitAccount name).take (k + 1)) := by
  unfold ancestors
  simp only [List.mem_map, List.mem_range]
  constructor
  · rintro ⟨k, hk, rfl⟩; exact ⟨k, hk, rfl⟩
  · rintro ⟨k, hk, rfl⟩; exact ⟨k, hk, rfl⟩

theorem length_ancestor_lt (name m : GoString) (h : m ∈ ancestors name) :
    m.length < name.length := by
  obtain ⟨k, hk, rfl⟩ := (mem_ancestors name m).mp h
  have h1 := length_Join_take_lt (SplitAccount name) ':' (k + 1) (SplitAccount name).length
    (by omega) (le_refl _) (by omega)
  rw [List.take_length] at h1
  have h2 : strings.Join (SplitAccount name) ':' = strings.Trim name ':' := Join_Split _ _
  rw [h2] at h1
  exact lt_of_lt_of_le h1 (length_Trim_le name ':')

theorem not_mem_ancestors_self (name : GoString) : name ∉ ancestors name :=
  fun h => lt_irrefl _ (length_ancestor_lt name name h)

theorem ancestors_nodup (name : GoString) : (ancestors name).Nodup := by
  unfold ancestors
  refine List.Nodup.map_on ?_ (List.nodup_range _)
  intro i hi j hj hij
  have hi2 := List.mem_range.mp hi
  have hj2 := List.mem_range.mp hj
  by_contra hne
  rcases Nat.lt_or_gt_of_ne hne with hlt | hgt
  · have := length_Join_take_lt (SplitAccount name) ':' (i + 1) (j + 1) (by omega) (by omega)
      (by omega)
    simp only [JoinAccounts] at hij
    rw [hij] at this
    exact lt_irrefl _ this
  · have := length_Join_take_lt (SplitAccount name) ':' (j + 1) (i + 1) (by omega) (by omega)
      (by omega)
    simp only [JoinAccounts] at hij
    rw [hij] at this
    exact lt_irrefl _ this

theorem occurrences_nodup (m : GoString) (l : List GoString) (h : l.Nodup) :
    occurrences m l = if m ∈ l then 1 else 0 := by
  induction l with
  | nil => simp [occurrences]
  | cons n rest ih =>
    have hn := List.nodup_cons.mp h
    rw [occurrences, ih hn.2]
    by_cases h1 : m = n
    · subst h1
      simp [hn.1]
    · simp [h1]

theorem occurrences_ancestors (name m : GoString) :
    occurrences m (ancestors name) = if m ∈ ancestors name then 1 else 0 :=
  occurrences_nodup m _ (ancestors_nodup name)

/-! ## Secondpass -/

theorem load_name (db : Datastore) (ptr : AccountPtr) : (ptr.load db).name = ptr.name := by
  cases ptr with
  | parsed a => rfl
  | canonical n => exact GetAccount_snd_name db n

theorem storeAccount_commodity (p : Posting) (db : Datastore) (a : Account) :
    (p.storeAccount db a).2.commodity = p.commodity := by
  unfold Posting.storeAccount
  cases p.account <;> rfl

theorem storeAccount_balprice (p : Posting) (db : Datastore) (a : Account) :
    (p.storeAccount db a).2.balprice = p.balprice := by
  unfold Posting.storeAccount
  cases p.account <;> rfl

theorem storeAccount_name (p : Posting) (db : Datastore) (a : Account)
    (h : a.name = p.account.name) : (p.storeAccount db a).2.account.name = p.account.name := by
  unfold Posting.storeAccount
  cases hp : p.account with
  | parsed a0 => rw [hp] at h; exact h
  | canonical n => simp [hp]

theorem load_storeAccount (p : Posting) (db : Datastore) (a : Account)
    (h : a.name = p.account.name) :
    (p.storeAccount db a).2.account.load (p.storeAccount db a).1 = a := by
  unfold Posting.storeAccount
  cases hp : p.account with
  | parsed a0 => rfl
  | canonical n =>
    rw [hp] at h
    simp only [hp, AccountPtr.load, Datastore.GetAccount]
    have : (db.putAccount a).findAccount n = some a := by
      rw [findAccount_putAccount]; simp [h, AccountPtr.name]
    rw [this]

theorem doTotal_spec (rep : Reporter) (acc : AccountPtr) (trans : Transaction) (p : Posting)
    (c : Commodity) (hc : p.commodity = some c) (db : Datastore) :
    ∃ db1 err k,
      Account.doTotal rep acc db trans p = .ok (db1, err) ∧
      k ≤ (ancestors acc.name).length ∧
      (err = none → k = (ancestors acc.name).length) ∧
      (∀ e, err = some e → ∃ msg, e = .reporter msg) ∧
      (∀ m, m ∉ (ancestors acc.name).take k → db1.findAccount m = db.findAccount m) ∧
      (∀ m name, db1.amountOf m name = db.amountOf m name +
        (if c.name = name then (occurrences m ((ancestors acc.name).take k) : ℚ) * c.amount
         else 0)) ∧
      db1.reported = db.reported ++
        ((ancestors acc.name).take k).map (fun n => ReporterCall.bubblePosting p n) := by
  obtain ⟨db1, err, k, h1, h2, h3, h4, h5, h6, h7⟩ :=
    doTotal_loop_spec rep trans p c hc (SplitAccount acc.name).dropLast [] db
  rw [← ancestors_eq_bubbleNames] at h5 h6 h7
  refine ⟨db1, err, k, h1, ?_, ?_, h4, h5, h6, h7⟩
  · rw [ancestors_eq_bubbleNames, bubbleNames_eq, List.length_map, List.length_range]
    exact h2
  · intro h
    rw [ancestors_eq_bubbleNames, bubbleNames_eq, List.length_map, List.length_range]
    exact h3 h

/-- The run of `Secondpass` on a posting with a bound commodity: the balance
after the addition exists; a failed assertion returns the mismatch error on
the state after the addition; otherwise the rest is `Secondpass.report`. -/
theorem Secondpass_run (rep : Reporter) (acc : AccountPtr) (db : Datastore) (trans : Transaction)
    (p : Posting) (c : Commodity) (hc : p.commodity = some c) :
    ∃ balance, ((p.account.load db).addBalance c).Balance c.name = some balance ∧
      Account.Secondpass rep acc db trans p =
        match p.balprice with
        | some b =>
          if balance.BalanceEqual b = false then
            .ok ((p.storeAccount db ((p.account.load db).addBalance c)).1,
              (p.storeAccount db ((p.account.load db).addBalance c)).2,
              some (.balanceMismatch p.account.name b balance))
          else Account.Secondpass.report rep acc
            (p.storeAccount db ((p.account.load db).addBalance c)).1 trans
            (p.storeAccount db ((p.account.load db).addBalance c)).2
        | none => Account.Secondpass.report rep acc
            (p.storeAccount db ((p.account.load db).addBalance c)).1 trans
            (p.storeAccount db ((p.account.load db).addBalance c)).2 := by
  have hname : ((p.account.load db).addBalance c).name = p.account.name := by
    rw [addBalance_name, load_name]
  have hbal : ∃ balance, ((p.account.load db).addBalance c).Balance c.name = some balance := by
    rw [Balance_addBalance_self]
    cases (p.account.load db).Balance c.name <;> simp
  obtain ⟨balance, hb⟩ := hbal
  refine ⟨balance, hb, ?_⟩
  unfold Account.Secondpass
  simp only [hc, load_storeAccount p db _ hname, hb, storeAccount_balprice,
    storeAccount_name p db _ hname]
  cases p.balprice with
  | none => rfl
  | some b => simp

theorem report_spec (rep : Reporter) (acc : AccountPtr) (db : Datastore) (trans : Transaction)
    (p : Posting) (c : Commodity) (hc : p.commodity = some c) :
    ∃ db1 err, Account.Secondpass.report rep acc db trans p = .ok (db1, p, err) ∧
      (∀ e, err = some e → ∃ msg, e = .reporter msg) ∧
      (err = none →
        (∀ m, m ∉ ancestors acc.name → db1.findAccount m = db.findAccount m) ∧
        (∀ m name, db1.amountOf m name = db.amountOf m name +
          (if c.name = name ∧ m ∈ ancestors acc.name then c.amount else 0))) := by
  cases hrep : rep.Posting (db.record (.posting p)) trans p with
  | some msg =>
    refine ⟨db.record (.posting p), some (.reporter msg), ?_, ?_, ?_⟩
    · simp only [Account.Secondpass.report, hrep]
    · intro e he; exact ⟨msg, by simpa using he.symm⟩
    · intro h; cases h
  | none =>
    obtain ⟨db1, err, k, h1, h2, h3, h4, h5, h6, h7⟩ :=
      doTotal_spec rep acc trans p c hc (db.record (.posting p))
    refine ⟨db1, err, ?_, h4, ?_⟩
    · simp only [Account.Secondpass.report, hrep, h1]
    · intro hnone
      have hk := h3 hnone
      rw [hk, List.take_length] at h5 h6
      refine ⟨fun m hm => by rw [h5 m hm, findAccount_record], fun m name => ?_⟩
      rw [h6, occurrences_ancestors]
      have : (db.record (.posting p)).amountOf m name = db.amountOf m name := rfl
      rw [this]
      by_cases hn : c.name = name <;> by_cases hm : m ∈ ancestors acc.name <;> simp [hn, hm]

/-- C2: for every posting with a bound commodity, Secondpass returns; it
returns a balance-mismatch error if and only if the posting carries a balance
assertion and the account's balance for the posting's symbol after the
addition is not BalanceEqual to the asserted value, and that error names the
account, the asserted value and the balance.  A posting without an assertion
never produces the mismatch error. -/
theorem Secondpass_mismatch_iff (rep : Reporter) (acc : AccountPtr) (db : Datastore)
    (trans : Transaction) (p : Posting) (c : Commodity) (hc : p.commodity = some c) :
    ∃ balance r,
      ((p.account.load db).addBalance c).Balance c.name = some balance ∧
      Account.Secondpass rep acc db trans p = .ok r ∧
      ((∃ n b g, r.2.2 = some (.balanceMismatch n b g)) ↔
        ∃ b, p.balprice = some b ∧ balance.BalanceEqual b = false) ∧
      (∀ b, p.balprice = some b → balance.BalanceEqual b = false →
        r.2.2 = some (.balanceMismatch p.account.name b balance)) ∧
      (p.balprice = none → ∀ n b g, r.2.2 ≠ some (.balanceMismatch n b g)) := by
  obtain ⟨balance, hb, hrun⟩ := Secondpass_run rep acc db trans p c hc
  have hc2 : (p.storeAccount db ((p.account.load db).addBalance c)).2.commodity = some c := by
    rw [storeAccount_commodity, hc]
  obtain ⟨db1, err, hrep, herr, -⟩ := report_spec rep acc
    (p.storeAccount db ((p.account.load db).addBalance c)).1 trans
    (p.storeAccount db ((p.account.load db).addBalance c)).2 c hc2
  have hnot : ∀ n b g, err ≠ some (Error.balanceMismatch n b g) := by
    intro n b g h
    obtain ⟨msg, hmsg⟩ := herr _ h
    cases hmsg
  cases hbp : p.balprice with
  | none =>
    rw [hbp] at hrun
    simp only at hrun
    rw [hrep] at hrun
    refine ⟨balance, _, hb, hrun, ?_, ?_, ?_⟩
    · constructor
      · rintro ⟨n, b, g, h⟩; exact absurd h (hnot n b g)
      · rintro ⟨b, h, -⟩; cases h
    · intro b h; cases h
    · intro _ n b g; exact hnot n b g
  | some b0 =>
    rw [hbp] at hrun
    simp only at hrun
    by_cases heq : balance.BalanceEqual b0 = false
    · rw [if_pos heq] at hrun
      refine ⟨balance, _, hb, hrun, ?_, ?_, ?_⟩
      · constructor
        · intro _; exact ⟨b0, rfl, heq⟩
        · intro _; exact ⟨_, _, _, rfl⟩
      · intro b h _
        cases h; rfl
      · intro h; cases h
    · rw [if_neg heq, hrep] at hrun
      refine ⟨balance, _, hb, hrun, ?_, ?_, ?_⟩
      · constructor
        · rintro ⟨n, b, g, h⟩; exact absurd h (hnot n b g)
        · rintro ⟨b, h, h2⟩
          cases h; exact absurd h2 heq
      · intro b h h2
        cases h; exact absurd h2 heq
      · intro h; cases h

theorem Secondpass_mismatch_iff_witness :
    (∃ balance r,
      (((assertedPosting 11).account.load emptyDb).addBalance usd10).Balance usd10.name
        = some balance ∧
      Account.Secondpass quietReporter (assertedPosting 11).account emptyDb
        (assertedPosting 11).trans (assertedPosting 11) = .ok r ∧
      ((∃ n b g, r.2.2 = some (.balanceMismatch n b g)) ↔
        ∃ b, (assertedPosting 11).balprice = some b ∧ balance.BalanceEqual b = false) ∧
      (∀ b, (assertedPosting 11).balprice = some b → balance.BalanceEqual b = false →
        r.2.2 = some (.balanceMismatch (assertedPosting 11).account.name b balance)) ∧
      ((assertedPosting 11).balprice = none → ∀ n b g, r.2.2 ≠ some (.balanceMismatch n b g))) :=
  Secondpass_mismatch_iff quietReporter (assertedPosting 11).account emptyDb
    (assertedPosting 11).trans (assertedPosting 11) usd10 rfl

theorem load_amountOf_canonical (db : Datastore) (n name : GoString) :
    ((AccountPtr.canonical n).load db).amountOf name = db.amountOf n name :=
  GetAccount_snd_amountOf db n name

theorem storeAccount_findAccount (p : Posting) (db : Datastore) (a : Account) (m : GoString)
    (ha : a.name = p.account.name) (hm : p.account ≠ .canonical m) :
    (p.storeAccount db a).1.findAccount m = db.findAccount m := by
  unfold Posting.storeAccount
  cases hp : p.account with
  | parsed a0 => rfl
  | canonical n =>
    rw [hp] at ha hm
    simp only [findAccount_putAccount]
    have : m ≠ a.name := by
      intro e; apply hm; rw [e, ha]; rfl
    simp [this]

theorem storeAccount_amountOf (p : Posting) (db : Datastore) (c : Commodity)
    (m name : GoString) :
    (p.storeAccount db ((p.account.load db).addBalance c)).1.amountOf m name =
      db.amountOf m name +
        (if p.account = .canonical m ∧ c.name = name then c.amount else 0) := by
  unfold Posting.storeAccount
  cases hp : p.account with
  | parsed a0 => simp
  | canonical n =>
    simp only [Datastore.amountOf, findAccount_putAccount, addBalance_name, load_name,
      AccountPtr.name]
    by_cases hm : m = n
    · subst hm
      simp only [if_true, true_and]
      rw [amountOf_addBalance, load_amountOf_canonical]
      rfl
    · have : ¬ (AccountPtr.canonical n = AccountPtr.canonical m) := by
        intro e; cases e; exact hm rfl
      simp [hm, this]

/-- C1: when Secondpass succeeds on a posting of amount X in symbol S, the
account posted to holds X more in S; each proper-prefix ancestor `s1`,
`s1:s2`, ..., `s1:..:s(n-1)` of its name holds exactly X more in S (each is
visited once); every other account of the datastore is left as it was; and
no balance in another symbol changes. -/
theorem Secondpass_bubbles (rep : Reporter) (db : Datastore) (trans : Transaction) (p : Posting)
    (c : Commodity) (db1 : Datastore) (p1 : Posting) (hc : p.commodity = some c)
    (h : Account.Secondpass rep p.account db trans p = .ok (db1, p1, none)) :
    (p1.account.load db1).amountOf c.name = (p.account.load db).amountOf c.name + c.amount ∧
    (∀ anc ∈ ancestors p.account.name,
      db1.amountOf anc c.name = db.amountOf anc c.name + c.amount) ∧
    (∀ m, m ∉ ancestors p.account.name → p.account ≠ .canonical m →
      db1.findAccount m = db.findAccount m) ∧
    (∀ m name, name ≠ c.name → db1.amountOf m name = db.amountOf m name) ∧
    (∀ name, name ≠ c.name →
      (p1.account.load db1).amountOf name = (p.account.load db).amountOf name) := by
  have hname : ((p.account.load db).addBalance c).name = p.account.name := by
    rw [addBalance_name, load_name]
  obtain ⟨balance, hb, hrun⟩ := Secondpass_run rep p.account db trans p c hc
  have hc2 : (p.storeAccount db ((p.account.load db).addBalance c)).2.commodity = some c := by
    rw [storeAccount_commodity, hc]
  obtain ⟨db2, err, hrep, -, hok⟩ := report_spec rep p.account
    (p.storeAccount db ((p.account.load db).addBalance c)).1 trans
    (p.storeAccount db ((p.account.load db).addBalance c)).2 c hc2
  have hres : Account.Secondpass.report rep p.account
      (p.storeAccount db ((p.account.load db).addBalance c)).1 trans
      (p.storeAccount db ((p.account.load db).addBalance c)).2 = .ok (db1, p1, none) := by
    rw [h] at hrun
    cases hbp : p.balprice with
    | none => rw [hbp] at hrun; exact hrun.symm
    | some b0 =>
      rw [hbp] at hrun
      simp only at hrun
      by_cases heq : balance.BalanceEqual b0 = false
      · rw [if_pos heq] at hrun
        simp at hrun
      · rw [if_neg heq] at hrun; exact hrun.symm
  rw [hrep] at hres
  simp only [Except.ok.injEq, Prod.mk.injEq] at hres
  obtain ⟨hdb, hp1, herr⟩ := hres
  subst hdb
  obtain ⟨hfind, hamt⟩ := hok herr
  have hload : p1.account.load db2 =
      (match p.account with
       | .parsed _ => (p.account.load db).addBalance c
       | .canonical n => (AccountPtr.canonical n).load db2) := by
    rw [← hp1]
    unfold Posting.storeAccount
    cases hp : p.account with
    | parsed a0 => rfl
    | canonical n => simp only [hp]
  have hown : ∀ name, (p1.account.load db2).amountOf name =
      (p.account.load db).amountOf name + (if c.name = name then c.amount else 0) := by
    intro name
    rw [hload]
    cases hp : p.account with
    | parsed a0 => simp only [amountOf_addBalance]
    | canonical n =>
      simp only
      rw [load_amountOf_canonical, hamt, storeAccount_amountOf, hp, load_amountOf_canonical]
      have hn : n ∉ ancestors (AccountPtr.canonical n).name := not_mem_ancestors_self n
      by_cases hcn : c.name = name <;> simp [hcn, hn]
  refine ⟨?_, ?_, ?_, ?_, ?_⟩
  · rw [hown]; simp
  · intro anc hanc
    rw [hamt, storeAccount_amountOf]
    have hne : p.account ≠ .canonical anc := by
      intro e
      rw [e] at hanc
      exact not_mem_ancestors_self anc hanc
    simp [hne, hanc]
  · intro m hm hne
    rw [hfind m hm, storeAccount_findAccount p db _ m hname hne]
  · intro m name hne
    rw [hamt, storeAccount_amountOf]
    simp [Ne.symm hne]
  · intro name hne
    rw [hown]; simp [Ne.symm hne]

theorem Secondpass_bubbles_witness :
    (groceryPosting.account.load groceryAfter).amountOf usd10.name =
      (groceryPosting.account.load emptyDb).amountOf usd10.name + usd10.amount ∧
    (∀ anc ∈ ancestors groceryPosting.account.name,
      groceryAfter.amountOf anc usd10.name = emptyDb.amountOf anc usd10.name + usd10.amount) ∧
    (∀ m, m ∉ ancestors groceryPosting.account.name → groceryPosting.account ≠ .canonical m →
      groceryAfter.findAccount m = emptyDb.findAccount m) ∧
    (∀ m name, name ≠ usd10.name → groceryAfter.amountOf m name = emptyDb.amountOf m name) ∧
    (∀ name, name ≠ usd10.name →
      (groceryPosting.account.load groceryAfter).amountOf name =
        (groceryPosting.account.load emptyDb).amountOf name) :=
  Secondpass_bubbles quietReporter emptyDb groceryPosting.trans groceryPosting usd10
    groceryAfter groceryPosting rfl rfl

/-! ## Firstpass -/

theorem isUnknown_length (acc : Account) (h : acc.isUnknown = true) :
    "Unknown".toList.length ≤ acc.name.length := by
  unfold Account.isUnknown at h
  simp only [Bool.or_eq_true, decide_eq_true_eq] at h
  rcases h with h | h
  · rw [h]
  · unfold strings.HasSuffix at h
    have := (List.isSuffixOf_iff_suffix.mp h).length_le
    have h8 : ":Unknown".toList.length = "Unknown".toList.length + 1 := by decide
    omega

theorem HasPrefix_append_drop (d pfx : GoString) (h : strings.HasPrefix d pfx = true) :
    pfx ++ d.drop pfx.length = d := by
  unfold strings.HasPrefix at h
  obtain ⟨t, rfl⟩ := ( List.isPrefixOf_iff_prefix).mp h
  simp

theorem HasPrefix_length (d pfx : GoString) (h : strings.HasPrefix d pfx = true) :
    pfx.length ≤ d.length := by
  unfold strings.HasPrefix at h
  exact (( List.isPrefixOf_iff_prefix).mp h).length_le

/-- The run of `Firstpass` on an Unknown account. -/
theorem Firstpass_of_unknown (p : Posting) (db : Datastore) (trans : Transaction)
    (hu : (p.account.load db).isUnknown = true) :
    p.Firstpass db trans = .ok (
      if (db.matchpayee trans.Payee).2 = false then
        (db, p, some (.noMatchingPayee p.account.name trans.Payee))
      else if strings.HasPrefix (db.matchpayee trans.Payee).1
          (p.account.name.take (p.account.name.length - "Unknown".toList.length)) = false then
        (db, p, some (.noMatchingPrefix p.account.name p.account.name))
      else Posting.Firstpass.bind p db trans (db.matchpayee trans.Payee).1) := by
  have hlen := isUnknown_length _ hu
  rw [load_name] at hlen
  unfold Posting.Firstpass
  generalize db.matchpayee trans.Payee = r
  obtain ⟨d, ok⟩ := r
  have h7 : "Unknown".toList.length = 7 := rfl
  simp only [hu, if_true, load_name, h7] at hlen ⊢
  cases ok with
  | false => simp
  | true =>
    have hs : sliceTo p.account.name ((p.account.name.length : Int) - ((7 : Nat) : Int)) =
        some (p.account.name.take (p.account.name.length - 7)) := by
      unfold sliceTo
      rw [if_pos (by omega)]
      congr 2
      omega
    simp only [hs]
    by_cases hp : strings.HasPrefix d (p.account.name.take (p.account.name.length - 7)) = false
    · simp [hp]
    · have hp2 : strings.HasPrefix d (p.account.name.take (p.account.name.length - 7)) = true := by
        simpa using hp
      have hl := HasPrefix_length _ _ hp2
      have hs2 : sliceFrom d
          ((p.account.name.take (p.account.name.length - 7)).length : Int)
          = some (d.drop (p.account.name.take (p.account.name.length - 7)).length) := by
        unfold sliceFrom
        rw [if_pos (by omega)]
        simp
      simp only [hp2, hs2, HasPrefix_append_drop _ _ hp2]
      simp

theorem Firstpass_of_known (p : Posting) (db : Datastore) (trans : Transaction)
    (hu : (p.account.load db).isUnknown = false) :
    p.Firstpass db trans =
      .ok (Posting.Firstpass.bind p db trans (db.applyroot (db.lookupAlias p.account.name))) := by
  unfold Posting.Firstpass
  simp [hu, load_name]

theorem Firstpass_bind_eq (p : Posting) (db : Datastore) (trans : Transaction) (n : GoString) :
    Posting.Firstpass.bind p db trans n =
      if db.IsStrict = true ∧ db.HasAccount n = false then (db, p, some (.notDeclared n))
      else ((db.GetAccount n).1, { p with account := .canonical n }, none) := by
  unfold Posting.Firstpass.bind Account.Firstpass Commodity.Firstpass
  cases db.IsStrict <;> cases db.HasAccount n <;> simp

/-- A posting whose effective name is resolved to `n` goes through the
strict-mode check and the rebinding with `n`. -/
theorem Firstpass_of_effectiveName (p : Posting) (db : Datastore) (trans : Transaction)
    (n : GoString) (h : effectiveName p db trans = some n) :
    p.Firstpass db trans = .ok (Posting.Firstpass.bind p db trans n) := by
  unfold effectiveName at h
  cases hu : (p.account.load db).isUnknown with
  | false =>
    rw [hu] at h
    simp only [Bool.false_eq_true, if_false, Option.some.injEq] at h
    rw [Firstpass_of_known p db trans hu, h]
  | true =>
    rw [hu] at h
    simp only [if_true] at h
    split at h
    · rename_i hcond
      simp only [Option.some.injEq] at h
      rw [Firstpass_of_unknown p db trans hu, if_neg (by simp [hcond.1]),
        if_neg (by rw [hcond.2]; simp), h]
    · cases h

theorem isUnknown_of_name (acc : Account) (P : GoString)
    (hP : P = [] ∨ ∃ Q, P = Q ++ [':']) (hname : acc.name = P ++ "Unknown".toList) :
    acc.isUnknown = true := by
  unfold Account.isUnknown
  rcases hP with hP | ⟨Q, hQ⟩
  · subst hP
    simp [hname]
  · simp only [Bool.or_eq_true, decide_eq_true_eq]
    right
    unfold strings.HasSuffix
    rw [List.isSuffixOf_iff_suffix]
    refine ⟨Q, ?_⟩
    rw [hname, hQ]
    simp

theorem take_of_name (name P : GoString) (hname : name = P ++ "Unknown".toList) :
    name.take (name.length - "Unknown".toList.length) = P := by
  subst hname
  simp

/-- C5: for every posting whose parsed account name is P followed by
`Unknown`, with P empty or ending in a colon, Firstpass returns the
no-matching-payee error when the datastore has no payee rule for the
transaction's payee, returns the no-matching-prefix error when the rule's
account name d does not start with P, and otherwise, in non-strict mode,
rebinds the posting's account to the canonical account of the registry whose
name is exactly d; the failures leave datastore and posting as they were. -/
theorem Firstpass_unknown (p : Posting) (db : Datastore) (trans : Transaction) (P : GoString)
    (hP : P = [] ∨ ∃ Q, P = Q ++ [':']) (hname : p.account.name = P ++ "Unknown".toList) :
    ((db.matchpayee trans.Payee).2 = false →
      p.Firstpass db trans =
        .ok (db, p, some (.noMatchingPayee p.account.name trans.Payee))) ∧
    ((db.matchpayee trans.Payee).2 = true →
      strings.HasPrefix (db.matchpayee trans.Payee).1 P = false →
      p.Firstpass db trans =
        .ok (db, p, some (.noMatchingPrefix p.account.name p.account.name))) ∧
    ((db.matchpayee trans.Payee).2 = true →
      strings.HasPrefix (db.matchpayee trans.Payee).1 P = true →
      db.IsStrict = false →
      p.Firstpass db trans =
        .ok ((db.GetAccount (db.matchpayee trans.Payee).1).1,
          { p with account := .canonical (db.matchpayee trans.Payee).1 }, none) ∧
      (db.GetAccount (db.matchpayee trans.Payee).1).1.findAccount
          (db.matchpayee trans.Payee).1 =
        some (db.GetAccount (db.matchpayee trans.Payee).1).2 ∧
      (db.GetAccount (db.matchpayee trans.Payee).1).2.name = (db.matchpayee trans.Payee).1) := by
  have hu : (p.account.load db).isUnknown = true :=
    isUnknown_of_name _ P hP (by rw [load_name]; exact hname)
  have hrun := Firstpass_of_unknown p db trans hu
  rw [take_of_name _ P hname] at hrun
  refine ⟨?_, ?_, ?_⟩
  · intro h
    rw [hrun, if_pos h]
  · intro h1 h2
    rw [hrun, if_neg (by simp [h1]), if_pos h2]
  · intro h1 h2 h3
    refine ⟨?_, ?_, GetAccount_snd_name _ _⟩
    · rw [hrun, if_neg (by simp [h1]), if_neg (by simp [h2]), Firstpass_bind_eq,
        if_neg (by simp [h3])]
    · rw [findAccount_GetAccount]; simp

theorem Firstpass_unknown_witness :
    (unknownPosting "OtherStore".toList).Firstpass emptyDb
        (unknownPosting "OtherStore".toList).trans =
      .ok (emptyDb, unknownPosting "OtherStore".toList,
        some (.noMatchingPayee "Expense:Unknown".toList "OtherStore".toList)) ∧
    ((unknownPosting "Store".toList).Firstpass emptyDb (unknownPosting "Store".toList).trans =
        .ok ((emptyDb.GetAccount "Expense:Groceries".toList).1,
          { unknownPosting "Store".toList with
            account := .canonical "Expense:Groceries".toList }, none) ∧
      (emptyDb.GetAccount "Expense:Groceries".toList).1.findAccount
          "Expense:Groceries".toList =
        some (emptyDb.GetAccount "Expense:Groceries".toList).2 ∧
      (emptyDb.GetAccount "Expense:Groceries".toList).2.name = "Expense:Groceries".toList) :=
  ⟨(Firstpass_unknown (unknownPosting "OtherStore".toList) emptyDb
      (unknownPosting "OtherStore".toList).trans "Expense:".toList
      (Or.inr ⟨"Expense".toList, rfl⟩) rfl).1 rfl,
   (Firstpass_unknown (unknownPosting "Store".toList) emptyDb
      (unknownPosting "Store".toList).trans "Expense:".toList
      (Or.inr ⟨"Expense".toList, rfl⟩) rfl).2.2 rfl rfl rfl⟩

/-- C6: for every posting whose effective account name is resolved to `n`,
Firstpass returns, and it returns the not-declared error if and only if the
datastore is in strict mode and HasAccount is false for `n`; when it does,
the error names `n` and datastore and posting are as before the call (the
account binding as parsed, no account created); when it does not, the
posting is bound to the canonical account of `n`.  In non-strict mode no
posting at all gets the not-declared error. -/
theorem Firstpass_strict (p : Posting) (db : Datastore) (trans : Transaction) :
    (∀ n, effectiveName p db trans = some n →
      ∃ r, p.Firstpass db trans = .ok r ∧
        ((∃ m, r.2.2 = some (.notDeclared m)) ↔
          (db.IsStrict = true ∧ db.HasAccount n = false)) ∧
        ((db.IsStrict = true ∧ db.HasAccount n = false) →
          r = (db, p, some (.notDeclared n))) ∧
        (¬ (db.IsStrict = true ∧ db.HasAccount n = false) →
          r = ((db.GetAccount n).1, { p with account := .canonical n }, none))) ∧
    (db.IsStrict = false →
      ∀ r m, p.Firstpass db trans = .ok r → r.2.2 ≠ some (.notDeclared m)) := by
  constructor
  · intro n hn
    refine ⟨_, Firstpass_of_effectiveName p db trans n hn, ?_, ?_, ?_⟩
    · rw [Firstpass_bind_eq]
      by_cases hc : db.IsStrict = true ∧ db.HasAccount n = false
      · rw [if_pos hc]; simp [hc]
      · rw [if_neg hc]; simp [hc]
    · intro hc
      rw [Firstpass_bind_eq, if_pos hc]
    · intro hc
      rw [Firstpass_bind_eq, if_neg hc]
  · intro hs r m hr
    cases hu : (p.account.load db).isUnknown with
    | false =>
      rw [Firstpass_of_known p db trans hu, Firstpass_bind_eq, if_neg (by simp [hs])] at hr
      simp only [Except.ok.injEq] at hr
      rw [← hr]; simp
    | true =>
      rw [Firstpass_of_unknown p db trans hu] at hr
      simp only [Except.ok.injEq] at hr
      rw [← hr]
      split
      · simp
      · split
        · simp
        · rw [Firstpass_bind_eq, if_neg (by simp [hs])]; simp

theorem Firstpass_strict_witness :
    (∃ r, (unknownPosting "Store".toList).Firstpass strictDb
          (unknownPosting "Store".toList).trans = .ok r ∧
        ((∃ m, r.2.2 = some (.notDeclared m)) ↔
          (strictDb.IsStrict = true ∧
            strictDb.HasAccount "Expense:Groceries".toList = false)) ∧
        ((strictDb.IsStrict = true ∧ strictDb.HasAccount "Expense:Groceries".toList = false) →
          r = (strictDb, unknownPosting "Store".toList,
            some (.notDeclared "Expense:Groceries".toList))) ∧
        (¬ (strictDb.IsStrict = true ∧
            strictDb.HasAccount "Expense:Groceries".toList = false) →
          r = ((strictDb.GetAccount "Expense:Groceries".toList).1,
            { unknownPosting "Store".toList with
              account := .canonical "Expense:Groceries".toList }, none))) ∧
    (∀ r m, cashPosting.Firstpass emptyDb cashPosting.trans = .ok r →
      r.2.2 ≠ some (.notDeclared m)) :=
  ⟨(Firstpass_strict (unknownPosting "Store".toList) strictDb
      (unknownPosting "Store".toList).trans).1 "Expense:Groceries".toList rfl,
   (Firstpass_strict cashPosting emptyDb cashPosting.trans).2 rfl⟩

/-! ## Clone: the pointer-level model -/

theorem GoMap.mem_set {V : Type} (m : GoMap V) (k : GoString) (v : V) (e : GoString × V)
    (h : e ∈ m.set k v) : e ∈ m ∨ e = (k, v) := by
  induction m with
  | nil => simp [GoMap.set] at h; exact Or.inr h
  | cons x rest ih =>
    obtain ⟨k1, v1⟩ := x
    unfold GoMap.set at h
    by_cases hk : k1 = k
    · simp only [hk, if_true, List.mem_cons] at h
      rcases h with h | h
      · exact Or.inr h
      · exact Or.inl (List.mem_cons_of_mem _ h)
    · simp only [hk, if_false, List.mem_cons] at h
      rcases h with h | h
      · exact Or.inl (by rw [h]; exact List.mem_cons_self _ _)
      · rcases ih h with h2 | h2
        · exact Or.inl (List.mem_cons_of_mem _ h2)
        · exact Or.inr h2

theorem GoMap.keys_set {V : Type} (m : GoMap V) (k : GoString) (v : V) :
    (m.set k v).map Prod.fst =
      if k ∈ m.map Prod.fst then m.map Prod.fst else m.map Prod.fst ++ [k] := by
  induction m with
  | nil => simp [GoMap.set]
  | cons x rest ih =>
    obtain ⟨k1, v1⟩ := x
    unfold GoMap.set
    by_cases hk : k1 = k
    · subst hk
      simp only [if_true, List.map_cons, List.mem_cons, true_or]
    · have hk2 : ¬ k = k1 := fun e => hk e.symm
      simp only [hk, if_false, List.map_cons, ih, List.mem_cons, hk2, false_or]
      split <;> simp

theorem GoMap.nodup_set {V : Type} (m : GoMap V) (k : GoString) (v : V)
    (h : (m.map Prod.fst).Nodup) : ((m.set k v).map Prod.fst).Nodup := by
  rw [GoMap.keys_set]
  split
  · exact h
  · rename_i hk
    rw [List.nodup_append]
    refine ⟨h, List.nodup_singleton _, ?_⟩
    intro x hx hx2
    simp only [List.mem_singleton] at hx2
    exact hk (hx2 ▸ hx)

theorem GoMap.mem_of_get? {V : Type} (m : GoMap V) (k : GoString) (v : V)
    (h : m.get? k = some v) : (k, v) ∈ m := by
  induction m with
  | nil => simp [GoMap.get?] at h
  | cons x rest ih =>
    obtain ⟨k1, v1⟩ := x
    unfold GoMap.get? at h
    by_cases hk : k1 = k
    · simp only [hk, if_true, Option.some.injEq] at h
      rw [hk, h]; exact List.mem_cons_self _ _
    · simp only [hk, if_false] at h
      exact List.mem_cons_of_mem _ (ih h)

theorem GoMap.get?_of_mem {V : Type} (m : GoMap V) (k : GoString) (v : V)
    (hn : (m.map Prod.fst).Nodup) (h : (k, v) ∈ m) : m.get? k = some v := by
  induction m with
  | nil => simp at h
  | cons x rest ih =>
    obtain ⟨k1, v1⟩ := x
    simp only [List.map_cons, List.nodup_cons] at hn
    unfold GoMap.get?
    simp only [List.mem_cons, Prod.mk.injEq] at h
    rcases h with ⟨h1, h2⟩ | h
    · simp [h1, h2]
    · have : k1 ≠ k := by
        intro e
        apply hn.1
        rw [e]
        exact List.mem_map_of_mem Prod.fst h
      simp only [this, if_false]
      exact ih hn.2 h

theorem GoMap.get?_eq_none {V : Type} (m : GoMap V) (k : GoString)
    (h : k ∉ m.map Prod.fst) : m.get? k = none := by
  cases hg : m.get? k with
  | none => rfl
  | some v => exact absurd (List.mem_map_of_mem Prod.fst (GoMap.mem_of_get? m k v hg)) h

namespace Mem

theorem Valid.mono (h h1 : Heap) (acc : Account) (hv : Valid h acc)
    (hm : h1.maps[acc.balance]? = h.maps[acc.balance]?)
    (hl : h.cells.length ≤ h1.cells.length) : Valid h1 acc := by
  obtain ⟨mp, h1m, h2, h3⟩ := hv
  exact ⟨mp, by rw [hm, h1m], h2, fun e he => lt_of_lt_of_le (h3 e he) hl⟩

theorem mem_addrs (h : Heap) (acc : Account) (mp : GoMap Nat)
    (hm : h.maps[acc.balance]? = some mp) (x : Nat) :
    x ∈ addrs h acc ↔ ∃ e ∈ mp, e.2 = x := by
  unfold addrs
  rw [hm]
  simp

theorem addrs_lt (h : Heap) (acc : Account) (hv : Valid h acc) (x : Nat)
    (hx : x ∈ addrs h acc) : x < h.cells.length := by
  obtain ⟨mp, h1, -, h3⟩ := hv
  obtain ⟨e, he, rfl⟩ := (mem_addrs h acc mp h1 x).mp hx
  exact h3 e he

theorem getEntry_mem_addrs (h : Heap) (acc : Account) (k : GoString) (addr : Nat)
    (hg : h.getEntry acc.balance k = some addr) : addr ∈ addrs h acc := by
  unfold Heap.getEntry at hg
  cases hm : h.maps[acc.balance]? with
  | none => rw [hm] at hg; cases hg
  | some mp =>
    rw [hm] at hg
    exact (mem_addrs h acc mp hm addr).mpr ⟨(k, addr), GoMap.mem_of_get? mp k addr hg, rfl⟩

/-- Filing an address the account holds already, or the address of a new
object, under a key of the account's map, after writes that stay within the
account's objects, is a step of the account. -/
theorem setEntry_step (h g : Heap) (acc : Account) (k : GoString) (addr : Nat)
    (hv : Valid h acc)
    (hmaps : g.maps = h.maps)
    (hlen : h.cells.length ≤ g.cells.length)
    (hcells : ∀ x, x < h.cells.length → x ∉ addrs h acc → g.cells[x]? = h.cells[x]?)
    (haddr : addr < g.cells.length)
    (hown : addr ∈ addrs h acc ∨ h.cells.length ≤ addr) :
    ∃ h1, g.setEntry acc.balance k addr = .ok h1 ∧ Step h acc h1 := by
  obtain ⟨mp, hm, hnd, hval⟩ := hv
  have hlt : acc.balance < h.maps.length := by
    by_contra hc
    rw [List.getElem?_eq_none (by omega)] at hm
    cases hm
  refine ⟨{ g with maps := g.maps.set acc.balance (mp.set k addr) }, ?_, ?_⟩
  · unfold Heap.setEntry
    rw [hmaps, hm]
  · have hnew : (h.maps.set acc.balance (mp.set k addr))[acc.balance]? = some (mp.set k addr) := by
      rw [List.getElem?_set]; simp [hlt]
    refine ⟨hlen, ?_, ?_, hcells, ?_, ?_⟩
    · simp only [hmaps, List.length_set]
    · intro m hne
      simp only [hmaps]
      rw [List.getElem?_set_ne (Ne.symm hne)]
    · refine ⟨mp.set k addr, ?_, GoMap.nodup_set mp k addr hnd, ?_⟩
      · simp only [hmaps]; exact hnew
      · intro e he
        rcases GoMap.mem_set mp k addr e he with h1 | h1
        · exact lt_of_lt_of_le (hval e h1) hlen
        · rw [h1]; exact haddr
    · intro x hx
      have hx2 : ∃ e ∈ mp.set k addr, e.2 = x := by
        refine (mem_addrs _ acc (mp.set k addr) ?_ x).mp hx
        simp only [hmaps]; exact hnew
      obtain ⟨e, he, rfl⟩ := hx2
      rcases GoMap.mem_set mp k addr e he with h1 | h1
      · exact Or.inl ((mem_addrs h acc mp hm e.2).mpr ⟨e, h1, rfl⟩)
      · rw [h1]; exact hown

theorem insert_step (h : Heap) (acc : Account) (k : GoString) (c : Commodity)
    (hv : Valid h acc) :
    ∃ h1, (h.alloc c).1.setEntry acc.balance k (h.alloc c).2 = .ok h1 ∧ Step h acc h1 := by
  refine setEntry_step h (h.alloc c).1 acc k (h.alloc c).2 hv rfl ?_ ?_ ?_ ?_
  · simp [Heap.alloc]
  · intro x hx _
    simp only [Heap.alloc]
    rw [List.getElem?_append_left hx]
  · simp [Heap.alloc]
  · exact Or.inr (le_refl _)

theorem update_step (h : Heap) (acc : Account) (k : GoString) (addr : Nat) (c : Commodity)
    (hv : Valid h acc) (hg : h.getEntry acc.balance k = some addr) :
    ∃ h1, (h.store addr c).setEntry acc.balance k addr = .ok h1 ∧ Step h acc h1 := by
  have hmem := getEntry_mem_addrs h acc k addr hg
  refine setEntry_step h (h.store addr c) acc k addr hv rfl ?_ ?_ ?_ (Or.inl hmem)
  · simp [Heap.store]
  · intro x _ hx
    simp only [Heap.store]
    rw [List.getElem?_set_ne]
    intro e
    exact hx (e ▸ hmem)
  · simp only [Heap.store, List.length_set]
    exact addrs_lt h acc hv addr hmem

theorem getEntry_cell (h : Heap) (acc : Account) (k : GoString) (addr : Nat)
    (hv : Valid h acc) (hg : h.getEntry acc.balance k = some addr) :
    ∃ c, h.cells[addr]? = some c := by
  have := addrs_lt h acc hv addr (getEntry_mem_addrs h acc k addr hg)
  exact ⟨h.cells[addr], List.getElem?_eq_getElem this⟩

/-- Every mutator returns on an account of the heap, and is a step of it. -/
theorem Mutation.run_step (h : Heap) (acc : Account) (mu : Mutation) (hv : Valid h acc) :
    ∃ h1, mu.run h acc = .ok h1 ∧ Step h acc h1 := by
  cases mu with
  | setOpeningbalance c => exact insert_step h acc c.name _ hv
  | addBalance c =>
    simp only [Mutation.run, Mem.addBalance]
    cases hg : h.getEntry acc.balance c.name with
    | none => exact insert_step h acc c.name _ hv
    | some addr =>
      obtain ⟨b, hb⟩ := getEntry_cell h acc c.name addr hv hg
      simp only [hb]
      exact update_step h acc c.name addr _ hv hg
  | deductBalance c =>
    simp only [Mutation.run, Mem.deductBalance]
    cases hg : h.getEntry acc.balance c.name with
    | none => exact insert_step h acc c.name _ hv
    | some addr =>
      obtain ⟨b, hb⟩ := getEntry_cell h acc c.name addr hv hg
      simp only [hb]
      exact update_step h acc c.name addr _ hv hg

theorem Separate.symm (h : Heap) (a b : Account) (hs : Separate h a b) : Separate h b a := by
  obtain ⟨h1, h2, h3, h4⟩ := hs
  exact ⟨h2, h1, Ne.symm h3, fun x hx hxa => h4 x hxa hx⟩

/-- A step of one of two separate accounts keeps them separate and leaves
every balance of the other as it was. -/
theorem Step.frame (h h1 : Heap) (a b : Account) (hs : Separate h a b) (hst : Step h a h1) :
    Separate h1 a b ∧ ∀ name, Balance h1 b name = Balance h b name := by
  obtain ⟨hva, hvb, hne, hdis⟩ := hs
  obtain ⟨hlen, -, hmaps, hcells, hva1, hown⟩ := hst
  have hmb : h1.maps[b.balance]? = h.maps[b.balance]? := hmaps _ (Ne.symm hne)
  have haddrs : addrs h1 b = addrs h b := by unfold addrs; rw [hmb]
  refine ⟨⟨hva1, Valid.mono h h1 b hvb hmb hlen, hne, ?_⟩, ?_⟩
  · intro x hx hxb
    rw [haddrs] at hxb
    rcases hown x hx with h2 | h2
    · exact hdis x h2 hxb
    · exact absurd (addrs_lt h b hvb x hxb) (not_lt.mpr h2)
  · intro name
    unfold Balance
    have hge : h1.getEntry b.balance name = h.getEntry b.balance name := by
      unfold Heap.getEntry; rw [hmb]
    rw [hge]
    cases hg : h.getEntry b.balance name with
    | none => rfl
    | some addr =>
      have hmem := getEntry_mem_addrs h b name addr hg
      exact hcells addr (addrs_lt h b hvb addr hmem) (fun hxa => hdis addr hxa hmem)

end Mem

namespace Mem

/-- The cloning loop returns; it writes the map at `m` only and no object
that existed; every entry it visits is filed under its key with the address
of a new object holding the clone. -/
theorem Clone.loop_spec (m : Nat) (es : List (GoString × Nat)) (g : Heap) (cur : GoMap Nat)
    (hm : g.maps[m]? = some cur) (hcur : (cur.map Prod.fst).Nodup)
    (hval : ∀ e ∈ es, e.2 < g.cells.length) (hes : (es.map Prod.fst).Nodup) :
    ∃ g1 cur1, Clone.loop m es g = .ok g1 ∧
      g1.maps.length = g.maps.length ∧
      (∀ i, i ≠ m → g1.maps[i]? = g.maps[i]?) ∧
      (∀ x, x < g.cells.length → g1.cells[x]? = g.cells[x]?) ∧
      g.cells.length ≤ g1.cells.length ∧
      g1.maps[m]? = some cur1 ∧ (cur1.map Prod.fst).Nodup ∧
      (∀ e ∈ cur1, e ∈ cur ∨ (g.cells.length ≤ e.2 ∧ e.2 < g1.cells.length)) ∧
      (∀ k, k ∉ es.map Prod.fst → cur1.get? k = cur.get? k) ∧
      (∀ e ∈ es, ∃ naddr, cur1.get? e.1 = some naddr ∧
        g1.cells[naddr]? = (g.cells[e.2]?).map Commodity.Clone) := by
  induction es generalizing g cur with
  | nil =>
    refine ⟨g, cur, rfl, rfl, fun _ _ => rfl, fun _ _ => rfl, le_refl _, hm, hcur,
      fun e he => Or.inl he, fun _ _ => rfl, ?_⟩
    intro e he; cases he
  | cons e0 rest ih =>
    obtain ⟨k, addr⟩ := e0
    have haddr : addr < g.cells.length := hval (k, addr) (List.mem_cons_self _ _)
    have hcell : g.cells[addr]? = some g.cells[addr] := List.getElem?_eq_getElem haddr
    simp only [List.map_cons, List.nodup_cons] at hes
    have hmlt : m < g.maps.length := by
      by_contra hc
      rw [List.getElem?_eq_none (by omega)] at hm
      cases hm
    have hm2 : ({ cells := g.cells ++ [(g.cells[addr]).Clone],
                  maps := g.maps.set m (cur.set k g.cells.length) } : Heap).maps[m]? =
        some (cur.set k g.cells.length) := by
      simp only [List.getElem?_set]; simp [hmlt]
    obtain ⟨g1, cur1, h1, h2, h3, h4, h5, h6, h7, h8, h9, h10⟩ :=
      ih { cells := g.cells ++ [(g.cells[addr]).Clone],
           maps := g.maps.set m (cur.set k g.cells.length) }
        (cur.set k g.cells.length) hm2 (GoMap.nodup_set cur k _ hcur)
        (fun e he => by
          have := hval e (List.mem_cons_of_mem _ he)
          simp only [List.length_append, List.length_singleton]
          omega)
        hes.2
    simp only [List.length_append, List.length_singleton, List.length_set] at h2 h4 h5 h8
    refine ⟨g1, cur1, ?_, h2, ?_, ?_, by omega, h6, h7, ?_, ?_, ?_⟩
    · rw [Clone.loop]
      simp only [hcell, Heap.alloc, Heap.setEntry, hm]
      exact h1
    · intro i hi
      rw [h3 i hi]
      simp only
      rw [List.getElem?_set_ne (Ne.symm hi)]
    · intro x hx
      rw [h4 x (by omega)]
      rw [List.getElem?_append_left hx]
    · intro e he
      rcases h8 e he with h | h
      · rcases GoMap.mem_set cur k _ e h with h' | h'
        · exact Or.inl h'
        · right
          rw [h']
          simp only
          omega
      · right; omega
    · intro k2 hk2
      simp only [List.map_cons, List.mem_cons, not_or] at hk2
      rw [h9 k2 hk2.2, GoMap.get?_set_other _ _ _ _ hk2.1]
    · intro e he
      simp only [List.mem_cons] at he
      rcases he with he | he
      · subst he
        refine ⟨g.cells.length, ?_, ?_⟩
        · rw [h9 k hes.1, GoMap.get?_set_self]
        · rw [h4 _ (by omega), hcell]
          simp
      · obtain ⟨naddr, hn1, hn2⟩ := h10 e he
        refine ⟨naddr, hn1, ?_⟩
        rw [hn2]
        simp only
        rw [List.getElem?_append_left (hval e (List.mem_cons_of_mem _ he))]

/-- Clone returns on an account of the heap; the clone has the fields of the
source but for its map, the two accounts are separate, the clone's balances
are the source's, and the source's balances are as before. -/
theorem Clone_spec (h : Heap) (a : Account) (hv : Valid h a) :
    ∃ h1, Clone h a = .ok (h1, { a with balance := h.maps.length }) ∧
      Separate h1 a { a with balance := h.maps.length } ∧
      (∀ name, Balance h1 { a with balance := h.maps.length } name = Balance h a name) ∧
      (∀ name, Balance h1 a name = Balance h a name) := by
  obtain ⟨mp, hmp, hnd, hval⟩ := hv
  have hlt : a.balance < h.maps.length := by
    by_contra hc
    rw [List.getElem?_eq_none (by omega)] at hmp
    cases hmp
  have hnew : h.newMap.1.maps[h.maps.length]? = some [] := by
    simp [Heap.newMap]
  obtain ⟨h1, cur1, h1run, h2, h3, h4, h5, h6, h7, h8, h9, h10⟩ :=
    Clone.loop_spec h.maps.length mp h.newMap.1 [] hnew (by simp) hval hnd
  have hcells : h.newMap.1.cells = h.cells := rfl
  rw [hcells] at h4 h5 h8 h10
  have hma : h1.maps[a.balance]? = some mp := by
    rw [h3 a.balance (by omega)]
    simp only [Heap.newMap]
    rw [List.getElem?_append_left hlt, hmp]
  have hva1 : Valid h1 a := ⟨mp, hma, hnd, fun e he => lt_of_lt_of_le (hval e he) h5⟩
  have hvb1 : Valid h1 { a with balance := h.maps.length } := by
    refine ⟨cur1, h6, h7, ?_⟩
    intro e he
    rcases h8 e he with h | h
    · cases h
    · exact h.2
  refine ⟨h1, ?_, ⟨hva1, hvb1, by simp only; omega, ?_⟩, ?_, ?_⟩
  · unfold Clone
    simp only [hmp, Option.getD_some]
    have : h.newMap.2 = h.maps.length := rfl
    rw [this, h1run]
  · intro x hxa hxb
    have hx1 : x < h.cells.length := by
      obtain ⟨e, he, rfl⟩ := (mem_addrs h1 a mp hma x).mp hxa
      exact hval e he
    obtain ⟨e, he, rfl⟩ := (mem_addrs h1 { a with balance := h.maps.length } cur1 h6 x).mp hxb
    rcases h8 e he with h | h
    · cases h
    · omega
  · intro name
    unfold Balance Heap.getEntry
    simp only [h6, hmp]
    cases hg : mp.get? name with
    | none =>
      have hk : name ∉ mp.map Prod.fst := by
        intro hmem
        obtain ⟨e, he, hfst⟩ := List.mem_map.mp hmem
        have := GoMap.get?_of_mem mp e.1 e.2 hnd he
        rw [hfst, hg] at this
        cases this
      rw [h9 name hk]
      rfl
    | some addr =>
      obtain ⟨naddr, hn1, hn2⟩ := h10 (name, addr) (GoMap.mem_of_get? mp name addr hg)
      simp only at hn1 hn2
      rw [hn1]
      simp only [hn2]
      cases h.cells[addr]? <;> rfl
  · intro name
    unfold Balance Heap.getEntry
    simp only [hma, hmp]
    cases hg : mp.get? name with
    | none => rfl
    | some addr =>
      exact h4 addr (hval _ (GoMap.mem_of_get? mp name addr hg))

/-- Any sequence of mutations of two separate accounts returns and keeps
them separate. -/
theorem runAll_separate (a b : Account) (ms : List (Bool × Mutation)) (h : Heap)
    (hs : Separate h a b) : ∃ h1, runAll a b ms h = .ok h1 ∧ Separate h1 a b := by
  induction ms generalizing h with
  | nil => exact ⟨h, rfl, hs⟩
  | cons x rest ih =>
    obtain ⟨onA, mu⟩ := x
    cases onA with
    | true =>
      obtain ⟨h1, hrun, hst⟩ := Mutation.run_step h a mu hs.1
      obtain ⟨h2, hrun2, hs2⟩ := ih h1 (Step.frame h h1 a b hs hst).1
      refine ⟨h2, ?_, hs2⟩
      rw [runAll]
      simp only [if_true, hrun]
      exact hrun2
    | false =>
      obtain ⟨h1, hrun, hst⟩ := Mutation.run_step h b mu hs.2.1
      have hs1 := (Step.frame h h1 b a (Separate.symm h a b hs) hst).1
      obtain ⟨h2, hrun2, hs2⟩ := ih h1 (Separate.symm h1 b a hs1)
      refine ⟨h2, ?_, hs2⟩
      rw [runAll]
      simp only [Bool.false_eq_true, if_false, hrun]
      exact hrun2

/-- C9: for every account a of the heap, a.Clone returns a clone b that has
the name, the flags and, symbol by symbol, the balances of a (and a keeps
its own); and after any sequence of addBalance, deductBalance and
setOpeningbalance calls on a and on b, a further such call on b returns and
leaves every balance of a unchanged, and a further such call on a returns and
leaves every balance of b unchanged. -/
theorem Clone_independent (h : Heap) (a : Account) (hv : Valid h a) :
    ∃ h1 b, Clone h a = .ok (h1, b) ∧
      b.name = a.name ∧ b.virtual = a.virtual ∧ b.balanced = a.balanced ∧
      b.hasposting = a.hasposting ∧
      (∀ name, Balance h1 b name = Balance h a name) ∧
      (∀ name, Balance h1 a name = Balance h a name) ∧
      ∀ (ms : List (Bool × Mutation)) (mu : Mutation),
        ∃ h2, runAll a b ms h1 = .ok h2 ∧
          (∃ h3, mu.run h2 b = .ok h3 ∧ ∀ name, Balance h3 a name = Balance h2 a name) ∧
          (∃ h3, mu.run h2 a = .ok h3 ∧ ∀ name, Balance h3 b name = Balance h2 b name) := by
  obtain ⟨h1, hrun, hsep, hb, ha⟩ := Clone_spec h a hv
  refine ⟨h1, _, hrun, rfl, rfl, rfl, rfl, hb, ha, ?_⟩
  intro ms mu
  obtain ⟨h2, hrun2, hs2⟩ := runAll_separate a _ ms h1 hsep
  refine ⟨h2, hrun2, ?_, ?_⟩
  · obtain ⟨h3, hr3, hst⟩ := Mutation.run_step h2 _ mu hs2.2.1
    exact ⟨h3, hr3, (Step.frame h2 h3 _ a (Separate.symm h2 a _ hs2) hst).2⟩
  · obtain ⟨h3, hr3, hst⟩ := Mutation.run_step h2 a mu hs2.1
    exact ⟨h3, hr3, (Step.frame h2 h3 a _ hs2 hst).2⟩

theorem Clone_independent_witness :
    ∃ h1 b, Clone sampleHeap sampleAccount = .ok (h1, b) ∧
      b.name = sampleAccount.name ∧ b.virtual = sampleAccount.virtual ∧
      b.balanced = sampleAccount.balanced ∧ b.hasposting = sampleAccount.hasposting ∧
      (∀ name, Balance h1 b name = Balance sampleHeap sampleAccount name) ∧
      (∀ name, Balance h1 sampleAccount name = Balance sampleHeap sampleAccount name) ∧
      ∀ (ms : List (Bool × Mutation)) (mu : Mutation),
        ∃ h2, runAll sampleAccount b ms h1 = .ok h2 ∧
          (∃ h3, mu.run h2 b = .ok h3 ∧
            ∀ name, Balance h3 sampleAccount name = Balance h2 sampleAccount name) ∧
          (∃ h3, mu.run h2 sampleAccount = .ok h3 ∧
            ∀ name, Balance h3 b name = Balance h2 b name) :=
  Clone_independent sampleHeap sampleAccount
    ⟨[("$".toList, 0), ("AAPL".toList, 1)], rfl, by decide, by decide⟩

end Mem

/-! ## Split after join, and the leaf segment -/

theorem Split_of_no_sep (s : GoString) (c : Char) (h : c ∉ s) : strings.Split s c = [s] := by
  induction s with
  | nil => rfl
  | cons x xs ih =>
    simp only [List.mem_cons, not_or] at h
    have hx : ¬ x = c := fun e => h.1 e.symm
    rw [strings.Split, if_neg hx, ih h.2]

theorem Split_append_sep_append (a b : GoString) (c : Char) :
    strings.Split (a ++ c :: b) c = strings.Split a c ++ strings.Split b c := by
  induction a with
  | nil => simp [strings.Split]
  | cons x xs ih =>
    simp only [List.cons_append, strings.Split]
    have e : xs.append (c :: b) = xs ++ c :: b := rfl
    by_cases hx : x = c
    · simp only [hx, if_true, e, ih, List.cons_append]
    · simp only [hx, if_false, e, ih]
      cases hsp : strings.Split xs c with
      | nil => exact absurd hsp (Split_ne_nil xs c)
      | cons seg rest => simp

theorem Split_Join (segs : List GoString) (c : Char) (hne : segs ≠ [])
    (hc : ∀ seg ∈ segs, c ∉ seg) : strings.Split (strings.Join segs c) c = segs := by
  induction segs with
  | nil => exact absurd rfl hne
  | cons a rest ih =>
    cases rest with
    | nil =>
      simp only [strings.Join]
      exact Split_of_no_sep a c (hc a (List.mem_cons_self _ _))
    | cons b rest =>
      simp only [strings.Join]
      rw [Split_append_sep_append, Split_of_no_sep a c (hc a (List.mem_cons_self _ _)),
        ih (by simp) (fun seg hs => hc seg (List.mem_cons_of_mem _ hs))]
      rfl

theorem Join_head (segs : List GoString) (c x : Char) (xs : GoString) (rest : List GoString)
    (h : segs = (x :: xs) :: rest) : ∃ t, strings.Join segs c = x :: t := by
  subst h
  cases rest with
  | nil => exact ⟨xs, rfl⟩
  | cons b rest => exact ⟨xs ++ c :: strings.Join (b :: rest) c, rfl⟩

theorem Join_last (segs : List GoString) (c : Char) (hne : segs ≠ []) :
    ∃ t, strings.Join segs c = t ++ segs.getLast hne := by
  induction segs with
  | nil => exact absurd rfl hne
  | cons a rest ih =>
    cases rest with
    | nil => exact ⟨[], by simp [strings.Join]⟩
    | cons b rest =>
      obtain ⟨t, ht⟩ := ih (by simp)
      refine ⟨a ++ c :: t, ?_⟩
      simp only [strings.Join, List.getLast_cons_cons, ht]
      simp

/-- C20: for every non-empty list of segments in which each segment is
non-empty and contains no colon, SplitAccount(JoinAccounts(segments)) is the
list itself. -/
theorem SplitAccount_JoinAccounts (segments : List GoString) (hne : segments ≠ [])
    (hseg : ∀ seg ∈ segments, seg ≠ [] ∧ ':' ∉ seg) :
    SplitAccount (JoinAccounts segments) = segments := by
  unfold SplitAccount JoinAccounts
  have hl : ∀ xs, strings.Join segments ':' ≠ ':' :: xs := by
    intro xs e
    cases hs : segments with
    | nil => exact hne hs
    | cons a rest =>
      have ha := hseg a (by rw [hs]; exact List.mem_cons_self _ _)
      cases ha2 : a with
      | nil => exact ha.1 ha2
      | cons x t =>
        obtain ⟨u, hu⟩ := Join_head segments ':' x t rest (by rw [hs, ha2])
        rw [hu] at e
        have hx : x = ':' := (List.cons.inj e).1
        apply ha.2
        rw [ha2, hx]
        exact List.mem_cons_self _ _
  have hr : ∀ xs, strings.Join segments ':' ≠ xs ++ [':'] := by
    intro xs e
    obtain ⟨t, ht⟩ := Join_last segments ':' hne
    have hlast := hseg _ (List.getLast_mem hne)
    rw [ht] at e
    have hd := List.dropLast_append_getLast hlast.1
    rw [← hd, ← List.append_assoc] at e
    have := List.append_inj' e rfl
    apply hlast.2
    have h2 : (segments.getLast hne).getLast hlast.1 = ':' := by
      have := List.singleton_inj.mp this.2
      exact this
    rw [← h2]
    exact List.getLast_mem hlast.1
  unfold strings.Trim
  rw [TrimLeft_eq_self _ ':' hl, TrimRight_eq_self _ ':' hr]
  exact Split_Join segments ':' hne (fun seg hs => (hseg seg hs).2)

theorem SplitAccount_JoinAccounts_witness :
    SplitAccount (JoinAccounts ["Expense".toList, "Food".toList, "Grocery".toList]) =
      ["Expense".toList, "Food".toList, "Grocery".toList] :=
  SplitAccount_JoinAccounts ["Expense".toList, "Food".toList, "Grocery".toList] (by decide)
    (by decide)

theorem exists_last_sep (s : GoString) (c : Char) (h : c ∈ s) :
    ∃ a b, s = a ++ c :: b ∧ c ∉ b := by
  induction s with
  | nil => simp at h
  | cons x xs ih =>
    by_cases hxs : c ∈ xs
    · obtain ⟨a, b, hab, hb⟩ := ih hxs
      exact ⟨x :: a, b, by rw [hab]; rfl, hb⟩
    · simp only [List.mem_cons] at h
      rcases h with h | h
      · exact ⟨[], xs, by rw [h]; rfl, hxs⟩
      · exact absurd h hxs

theorem last_sep_unique (a b a2 b2 : GoString) (c : Char) (h : a ++ c :: b = a2 ++ c :: b2)
    (hb : c ∉ b) (hb2 : c ∉ b2) : b = b2 := by
  rcases List.append_eq_append_iff.mp h with ⟨m, -, hm⟩ | ⟨m, -, hm⟩
  · cases m with
    | nil => simpa using hm
    | cons y m =>
      simp only [List.cons_append, List.cons.injEq] at hm
      exact absurd (by rw [hm.2]; simp) hb
  · cases m with
    | nil => simpa using hm.symm
    | cons y m =>
      simp only [List.cons_append, List.cons.injEq] at hm
      exact absurd (by rw [hm.2]; simp) hb2

theorem getLast?_Split_of_no_sep (s : GoString) (c : Char) (h : c ∉ s) :
    (strings.Split s c).getLast? = some s := by
  rw [Split_of_no_sep s c h]; rfl

theorem getLast?_Split_of_last_sep (a b : GoString) (c : Char) (hb : c ∉ b) :
    (strings.Split (a ++ c :: b) c).getLast? = some b := by
  rw [Split_append_sep_append, Split_of_no_sep b c hb]
  simp

/-- The test of `isUnknown` is that the last element of
`strings.Split(name, ":")`, with nothing trimmed, is `Unknown`. -/
theorem isUnknown_iff_last_Split (acc : Account) :
    acc.isUnknown = true ↔ (strings.Split acc.name ':').getLast? = some "Unknown".toList := by
  unfold Account.isUnknown strings.HasSuffix
  simp only [Bool.or_eq_true, decide_eq_true_eq, List.isSuffixOf_iff_suffix]
  have hU : ':' ∉ "Unknown".toList := by decide
  by_cases hc : ':' ∈ acc.name
  · obtain ⟨a, b, hab, hb⟩ := exists_last_sep acc.name ':' hc
    rw [hab, getLast?_Split_of_last_sep a b ':' hb]
    constructor
    · rintro (h | ⟨t, ht⟩)
      · exfalso
        apply hU
        rw [← h]
        simp
      · have e : a ++ ':' :: b = t ++ ':' :: "Unknown".toList := ht.symm
        rw [last_sep_unique a b t "Unknown".toList ':' e hb hU]
    · intro h
      simp only [Option.some.injEq] at h
      right
      exact ⟨a, by rw [h]; rfl⟩
  · rw [getLast?_Split_of_no_sep acc.name ':' hc]
    constructor
    · rintro (h | ⟨t, ht⟩)
      · rw [h]
      · exfalso
        apply hc
        rw [← ht]
        simp
    · intro h
      simp only [Option.some.injEq] at h
      exact Or.inl h

theorem getLast?_Split_TrimLeft (s : GoString) (c : Char) :
    (strings.Split (strings.TrimLeft s c) c).getLast? = (strings.Split s c).getLast? := by
  induction s with
  | nil => rfl
  | cons x xs ih =>
    unfold strings.TrimLeft at ih ⊢
    by_cases hx : x = c
    · subst hx
      rw [List.dropWhile_cons_of_pos (by simp), ih, strings.Split, if_pos rfl]
      cases hsp : strings.Split xs x with
      | nil => exact absurd hsp (Split_ne_nil xs x)
      | cons seg rest => rw [List.getLast?_cons_cons]
    · rw [List.dropWhile_cons_of_neg (by simpa using hx)]

theorem Trim_eq_TrimLeft (s : GoString) (c : Char) (h : ∀ xs, s ≠ xs ++ [c]) :
    strings.Trim s c = strings.TrimLeft s c := by
  unfold strings.Trim
  apply TrimRight_eq_self
  intro xs e
  apply h (List.takeWhile (fun x => x == c) s ++ xs)
  have := List.takeWhile_append_dropWhile (fun x => x == c) s
  unfold strings.TrimLeft at e
  rw [e] at this
  rw [List.append_assoc]
  exact this.symm

/-- C13 as stated fails for a name with a trailing colon: the last element of
SplitAccount(`Unknown:`) is `Unknown`, and isUnknown answers false. -/
theorem isUnknown_trailing_colon :
    (SplitAccount "Unknown:".toList).getLast? = some "Unknown".toList ∧
    (NewAccount "Unknown:".toList).isUnknown = false := by
  constructor <;> decide

/-- C13, amended: for every account whose name does not end in a colon,
isUnknown() returns true if and only if the last element of
SplitAccount(name) is exactly `Unknown`. -/
theorem isUnknown_iff_leaf (acc : Account) (h : ∀ xs, acc.name ≠ xs ++ [':']) :
    acc.isUnknown = true ↔ (SplitAccount acc.name).getLast? = some "Unknown".toList := by
  rw [isUnknown_iff_last_Split, SplitAccount, Trim_eq_TrimLeft acc.name ':' h,
    getLast?_Split_TrimLeft]

theorem isUnknown_iff_leaf_witness :
    (NewAccount ":Expense:Unknown".toList).isUnknown = true ↔
      (SplitAccount (NewAccount ":Expense:Unknown".toList).name).getLast? =
        some "Unknown".toList :=
  isUnknown_iff_leaf (NewAccount ":Expense:Unknown".toList) (by
    intro xs e
    have := congrArg List.getLast? e
    simp [NewAccount] at this)

/-! ## getCostprice: the price node after the call -/

theorem getCostprice_debit (p : Posting) (c cp : Commodity) (hc : p.commodity = some c)
    (hq : 0 ≤ c.amount) (hcur : c.currency = false) (hcp : p.costprice = some cp)
    (hz : cp.total = true → c.amount ≠ 0) :
    p.getCostprice =
      .ok ({ p with costprice := some (if cp.total then
              { cp with amount := cp.amount / c.amount } else cp) },
           cp.makeSimilar (c.amount * (if cp.total then cp.amount / c.amount else cp.amount))) := by
  have hnlt : ¬ c.amount < 0 := not_lt.mpr hq
  simp [Posting.getCostprice, Posting.isDebit, Posting.isCredit, hc, hcp, hcur, hnlt,
    valuation_ok cp c.amount hz]

theorem getCostprice_credit (p : Posting) (c lp : Commodity) (hc : p.commodity = some c)
    (hq : c.amount < 0) (hcur : c.currency = false) (hlp : p.lotprice = some lp) :
    p.getCostprice =
      .ok ({ p with lotprice := some (if lp.total then
              { lp with amount := lp.amount / c.amount } else lp) },
           lp.makeSimilar (c.amount * (if lp.total then lp.amount / c.amount else lp.amount))) := by
  have hne : lp.total = true → c.amount ≠ 0 := fun _ => ne_of_lt hq
  simp [Posting.getCostprice, Posting.isDebit, Posting.isCredit, hc, hlp, hcur, hq,
    valuation_ok lp c.amount hne]

theorem getCostprice_own (p : Posting) (c : Commodity) (hc : p.commodity = some c)
    (h : c.currency = true ∨ (0 ≤ c.amount ∧ p.costprice = none) ∨
      (c.amount < 0 ∧ p.lotprice = none)) :
    p.getCostprice = .ok (p, c) := by
  rcases h with hcur | ⟨hq, hcp⟩ | ⟨hq, hlp⟩
  · simp [Posting.getCostprice, Posting.isDebit, Posting.isCredit, hc, hcur, makeSimilar_self]
  · have hnlt : ¬ c.amount < 0 := not_lt.mpr hq
    simp [Posting.getCostprice, Posting.isDebit, Posting.isCredit, hc, hcp, hnlt,
      makeSimilar_self]
  · cases hcur : c.currency <;>
      simp [Posting.getCostprice, Posting.isDebit, Posting.isCredit, hc, hlp, hq, hcur,
        makeSimilar_self]

theorem Posting.set_costprice_self (p : Posting) (cp : Commodity) (h : p.costprice = some cp) :
    { p with costprice := some cp } = p := by
  cases p; simp only at h; simp [h]

theorem Posting.set_lotprice_self (p : Posting) (lp : Commodity) (h : p.lotprice = some lp) :
    { p with lotprice := some lp } = p := by
  cases p; simp only at h; simp [h]

/-- C17: for every debit posting of a non-currency commodity with non-zero
quantity q and a cost price written as a total T, and every credit posting
with a lot price written as a total T, the first call of getCostprice returns
a commodity in the price's symbol whose amount is exactly T, whatever q. -/
theorem getCostprice_total (p : Posting) (c : Commodity) (hc : p.commodity = some c)
    (hcur : c.currency = false) (hq : c.amount ≠ 0) :
    (∀ cp, 0 ≤ c.amount → p.costprice = some cp → cp.total = true →
      ∃ p1 r, p.getCostprice = .ok (p1, r) ∧ r.name = cp.name ∧ r.amount = cp.amount) ∧
    (∀ lp, c.amount < 0 → p.lotprice = some lp → lp.total = true →
      ∃ p1 r, p.getCostprice = .ok (p1, r) ∧ r.name = lp.name ∧ r.amount = lp.amount) := by
  constructor
  · intro cp h0 hcp ht
    refine ⟨_, _, getCostprice_debit p c cp hc h0 hcur hcp (fun _ => hq), rfl, ?_⟩
    simp only [Commodity.makeSimilar, ht, if_true]
    field_simp
  · intro lp h0 hlp ht
    refine ⟨_, _, getCostprice_credit p c lp hc h0 hcur hlp, rfl, ?_⟩
    simp only [Commodity.makeSimilar, ht, if_true]
    field_simp

theorem getCostprice_total_witness :
    (∃ p1 r, buyPosting.getCostprice = .ok (p1, r) ∧ r.name = (usd 30 true).name ∧
      r.amount = (usd 30 true).amount) ∧
    (∃ p1 r, sellPosting.getCostprice = .ok (p1, r) ∧ r.name = (usd 30 true).name ∧
      r.amount = (usd 30 true).amount) :=
  ⟨(getCostprice_total buyPosting (aapl 2) rfl rfl (by simp [aapl])).1 (usd 30 true)
      (by simp [aapl]) rfl rfl,
   (getCostprice_total sellPosting (aapl (-2)) rfl rfl (by simp [aapl])).2 (usd 30 true)
      (by simp [aapl]) rfl rfl⟩

/-- C19 at the failing input: on `0 AAPL @@ $30` the posting is a debit (its
amount is not negative), the cost price is a total, and getCostprice divides
it by the quantity zero. -/
theorem getCostprice_divides_by_zero :
    zeroTotalPosting.isDebit = .ok true ∧
    zeroTotalPosting.getCostprice = .error .divideByZero := by
  constructor
  · simp [Posting.isDebit, Posting.isCredit, zeroTotalPosting, mkPosting, aapl]
  · simp [Posting.getCostprice, Posting.isDebit, Posting.isCredit, zeroTotalPosting, mkPosting,
      Posting.valuation, Commodity.isTotal, aapl, usd]

/-- C18 at two failing inputs: with a segment shorter than three bytes
`name[3:]` is out of range, and with a name longer than the width
`name[:len(name)-scraplen]` is. -/
theorem FitAccountname_panics :
    FitAccountname "ab".toList 2 = .error .sliceBounds ∧
    FitAccountname "Assets:Cash".toList 8 = .error .sliceBounds := by
  constructor <;> rfl

/-- C16 as stated fails for the quantity 1 and for the total 0: on
`1 AAPL @@ $30` the first call leaves the cost price at 30/1, still a total,
and the second call returns the same valuation as the first; on
`2 AAPL @@ $0` both calls return `$0`. -/
theorem getCostprice_twice_same :
    (∃ p1 r1 p2 r2, onePosting.getCostprice = .ok (p1, r1) ∧
      p1.costprice = some (usd 30 true) ∧
      p1.getCostprice = .ok (p2, r2) ∧ r2 = r1) ∧
    (∃ p1 r1 p2 r2, freePosting.getCostprice = .ok (p1, r1) ∧
      p1.costprice = some (usd 0 true) ∧
      p1.getCostprice = .ok (p2, r2) ∧ r2 = r1) := by
  constructor
  · have h1 := getCostprice_debit onePosting (aapl 1) (usd 30 true) rfl (by simp [aapl]) rfl rfl
      (by simp [aapl])
    have e : (if (usd 30 true).total = true then
        ({ usd 30 true with amount := (usd 30 true).amount / (aapl 1).amount } : Commodity)
        else usd 30 true) = usd 30 true := by
      simp [usd, aapl]
    rw [e] at h1
    have e2 : (if (usd 30 true).total = true then (usd 30 true).amount / (aapl 1).amount
        else (usd 30 true).amount) = 30 := by
      simp [usd, aapl]
    rw [e2] at h1
    have h2 := getCostprice_debit { onePosting with costprice := some (usd 30 true) } (aapl 1)
      (usd 30 true) rfl (by simp [aapl]) rfl rfl (by simp [aapl])
    rw [e, e2] at h2
    exact ⟨_, _, _, _, h1, rfl, h2, rfl⟩
  · have h1 := getCostprice_debit freePosting (aapl 2) (usd 0 true) rfl (by simp [aapl]) rfl rfl
      (by simp [aapl])
    have e : (if (usd 0 true).total = true then
        ({ usd 0 true with amount := (usd 0 true).amount / (aapl 2).amount } : Commodity)
        else usd 0 true) = usd 0 true := by
      simp [usd, aapl]
    rw [e] at h1
    have e2 : (if (usd 0 true).total = true then (usd 0 true).amount / (aapl 2).amount
        else (usd 0 true).amount) = 0 := by
      simp [usd, aapl]
    rw [e2] at h1
    have h2 := getCostprice_debit { freePosting with costprice := some (usd 0 true) } (aapl 2)
      (usd 0 true) rfl (by simp [aapl]) rfl rfl (by simp [aapl])
    rw [e, e2] at h2
    exact ⟨_, _, _, _, h1, rfl, h2, rfl⟩

/-- C16, amended: for every debit non-currency posting of non-zero quantity q
whose cost price was written as a total T, after one call of getCostprice the
posting's stored cost price amount is T/q; a second call on the posting,
whose price is still flagged as total, divides again, stores T/q/q and
returns the amount T/q where the first returned T, so the two valuations
differ exactly when T is not zero and q is not 1; symmetrically for a credit
posting's lot price.  When the price that applies is not a total, or no price
applies, getCostprice returns and leaves the posting as it is. -/
theorem getCostprice_in_place (p : Posting) (c : Commodity) (hc : p.commodity = some c) :
    (∀ cp, 0 ≤ c.amount → c.amount ≠ 0 → c.currency = false → p.costprice = some cp →
      cp.total = true →
      ∃ p1 r1 p2 r2, p.getCostprice = .ok (p1, r1) ∧
        p1.costprice = some { cp with amount := cp.amount / c.amount } ∧
        p1.getCostprice = .ok (p2, r2) ∧
        p2.costprice = some { cp with amount := cp.amount / c.amount / c.amount } ∧
        r1.amount = cp.amount ∧ r2.amount = cp.amount / c.amount ∧
        (r2 ≠ r1 ↔ (cp.amount ≠ 0 ∧ c.amount ≠ 1))) ∧
    (∀ lp, c.amount < 0 → c.currency = false → p.lotprice = some lp → lp.total = true →
      ∃ p1 r1 p2 r2, p.getCostprice = .ok (p1, r1) ∧
        p1.lotprice = some { lp with amount := lp.amount / c.amount } ∧
        p1.getCostprice = .ok (p2, r2) ∧
        p2.lotprice = some { lp with amount := lp.amount / c.amount / c.amount } ∧
        r1.amount = lp.amount ∧ r2.amount = lp.amount / c.amount ∧
        (r2 ≠ r1 ↔ (lp.amount ≠ 0 ∧ c.amount ≠ 1))) ∧
    ((∀ cp, 0 ≤ c.amount → c.currency = false → p.costprice = some cp → cp.total = false) →
      (∀ lp, c.amount < 0 → c.currency = false → p.lotprice = some lp → lp.total = false) →
      ∃ r, p.getCostprice = .ok (p, r)) := by
  have hdiff : ∀ (price : Commodity) (q : ℚ), q ≠ 0 →
      ((({ price with amount := price.amount / q } : Commodity).makeSimilar
          (q * (price.amount / q / q)) ≠
        price.makeSimilar (q * (price.amount / q))) ↔ (price.amount ≠ 0 ∧ q ≠ 1)) := by
    intro price q hq
    have e1 : q * (price.amount / q / q) = price.amount / q := by
      field_simp
      ring
    have e2 : q * (price.amount / q) = price.amount := by field_simp
    rw [e1, e2]
    simp only [Commodity.makeSimilar, ne_eq, Commodity.mk.injEq, true_and, and_true]
    constructor
    · intro h
      refine ⟨fun h0 => h (by rw [h0]; simp), fun h1 => h (by rw [h1]; simp)⟩
    · rintro ⟨h0, h1⟩ h
      rw [div_eq_iff hq] at h
      have : price.amount * (q - 1) = 0 := by linarith
      rcases mul_eq_zero.mp this with h2 | h2
      · exact h0 h2
      · exact h1 (by linarith)
  refine ⟨?_, ?_, ?_⟩
  · intro cp h0 hq hcur hcp ht
    have h1 := getCostprice_debit p c cp hc h0 hcur hcp (fun _ => hq)
    simp only [if_pos ht] at h1
    have h2 := getCostprice_debit
      { p with costprice := some { cp with amount := cp.amount / c.amount } } c
      { cp with amount := cp.amount / c.amount } hc h0 hcur rfl (fun _ => hq)
    simp only [if_pos ht] at h2
    refine ⟨_, _, _, _, h1, rfl, h2, rfl, ?_, ?_, hdiff cp c.amount hq⟩
    · simp only [Commodity.makeSimilar]; field_simp
    · simp only [Commodity.makeSimilar]; field_simp; ring
  · intro lp h0 hcur hlp ht
    have hq : c.amount ≠ 0 := ne_of_lt h0
    have h1 := getCostprice_credit p c lp hc h0 hcur hlp
    simp only [if_pos ht] at h1
    have h2 := getCostprice_credit
      { p with lotprice := some { lp with amount := lp.amount / c.amount } } c
      { lp with amount := lp.amount / c.amount } hc h0 hcur rfl
    simp only [if_pos ht] at h2
    refine ⟨_, _, _, _, h1, rfl, h2, rfl, ?_, ?_, hdiff lp c.amount hq⟩
    · simp only [Commodity.makeSimilar]; field_simp
    · simp only [Commodity.makeSimilar]; field_simp; ring
  · intro hcost hlot
    cases hcur : c.currency with
    | true => exact ⟨c, getCostprice_own p c hc (Or.inl hcur)⟩
    | false =>
      rcases lt_or_le c.amount 0 with hneg | hpos
      · cases hlp : p.lotprice with
        | none => exact ⟨c, getCostprice_own p c hc (Or.inr (Or.inr ⟨hneg, hlp⟩))⟩
        | some lp =>
          have ht := hlot lp hneg hcur hlp
          have h1 := getCostprice_credit p c lp hc hneg hcur hlp
          simp only [ht, Bool.false_eq_true, if_false, Posting.set_lotprice_self p lp hlp] at h1
          exact ⟨_, h1⟩
      · cases hcp : p.costprice with
        | none => exact ⟨c, getCostprice_own p c hc (Or.inr (Or.inl ⟨hpos, hcp⟩))⟩
        | some cp =>
          have ht := hcost cp hpos hcur hcp
          have h1 := getCostprice_debit p c cp hc hpos hcur hcp (by simp [ht])
          simp only [ht, Bool.false_eq_true, if_false, Posting.set_costprice_self p cp hcp] at h1
          exact ⟨_, h1⟩

theorem getCostprice_in_place_witness :
    (∃ p1 r1 p2 r2, buyPosting.getCostprice = .ok (p1, r1) ∧
        p1.costprice = some { usd 30 true with amount := (usd 30 true).amount / (aapl 2).amount } ∧
        p1.getCostprice = .ok (p2, r2) ∧
        p2.costprice = some { usd 30 true with
          amount := (usd 30 true).amount / (aapl 2).amount / (aapl 2).amount } ∧
        r1.amount = (usd 30 true).amount ∧
        r2.amount = (usd 30 true).amount / (aapl 2).amount ∧
        (r2 ≠ r1 ↔ ((usd 30 true).amount ≠ 0 ∧ (aapl 2).amount ≠ 1))) ∧
    (∃ r, cashPosting.getCostprice = .ok (cashPosting, r)) :=
  ⟨(getCostprice_in_place buyPosting (aapl 2) rfl).1 (usd 30 true) (by simp [aapl])
      (by simp [aapl]) rfl rfl rfl,
   (getCostprice_in_place cashPosting usd10 rfl).2.2
      (fun cp _ h => by simp [usd10] at h) (fun lp _ h => by simp [usd10] at h)⟩

/-! ## Balances -/

theorem filterMap_entries (m : GoMap Commodity) (l : List (GoString × Commodity))
    (h : ∀ e ∈ l, m.get? e.1 = some e.2) :
    (l.map Prod.fst).filterMap (fun k => (m.get? k).map (fun v => (k, v))) = l := by
  induction l with
  | nil => rfl
  | cons e rest ih =>
    have he := h e (List.mem_cons_self _ _)
    simp only [List.map_cons, List.filterMap_cons, he, Option.map_some']
    rw [ih (fun e2 h2 => h e2 (List.mem_cons_of_mem _ h2))]

theorem filterMap_keys (m : GoMap Commodity) (ks : List GoString)
    (h : ∀ k ∈ ks, ∃ v, m.get? k = some v) :
    (ks.filterMap (fun k => (m.get? k).map (fun v => (k, v)))).map Prod.fst = ks ∧
    (ks.filterMap (fun k => (m.get? k).map (fun v => (k, v)))).map (fun e => some e.2) =
      ks.map (fun k => m.get? k) := by
  induction ks with
  | nil => exact ⟨rfl, rfl⟩
  | cons k rest ih =>
    obtain ⟨v, hv⟩ := h k (List.mem_cons_self _ _)
    obtain ⟨h1, h2⟩ := ih (fun k2 hk2 => h k2 (List.mem_cons_of_mem _ hk2))
    simp only [List.filterMap_cons, hv, Option.map_some', List.map_cons, h1, h2, and_self]

/-- C11: for every account whose balance map has one entry per key (as every
Go map has), Balances() returns the commodities of a rearrangement of the
map's entries, one per entry, none missing and none twice, listed in strictly
ascending order of their symbols. -/
theorem Balances_sorted (acc : Account) (h : (acc.balance.map Prod.fst).Nodup) :
    ∃ entries : List (GoString × Commodity),
      entries.Perm acc.balance ∧
      (entries.map Prod.fst).Sorted (fun a b => a < b) ∧
      acc.Balances = entries.map (fun e => some e.2) := by
  have hperm : (sortStrings (acc.balance.map Prod.fst)).Perm (acc.balance.map Prod.fst) :=
    List.perm_insertionSort _ _
  have hsome : ∀ k ∈ sortStrings (acc.balance.map Prod.fst),
      ∃ v, acc.balance.get? k = some v := by
    intro k hk
    obtain ⟨e, he, hfst⟩ := List.mem_map.mp (hperm.mem_iff.mp hk)
    exact ⟨e.2, by rw [← hfst]; exact GoMap.get?_of_mem _ _ _ h he⟩
  obtain ⟨h1, h2⟩ := filterMap_keys acc.balance _ hsome
  refine ⟨(sortStrings (acc.balance.map Prod.fst)).filterMap
      (fun k => (acc.balance.get? k).map (fun v => (k, v))), ?_, ?_, ?_⟩
  · have := List.Perm.filterMap
      (fun k => (acc.balance.get? k).map (fun v => (k, v))) hperm
    rw [filterMap_entries acc.balance acc.balance
      (fun e he => GoMap.get?_of_mem _ _ _ h he)] at this
    exact this
  · rw [h1]
    exact (List.sorted_insertionSort (fun a b : GoString => a ≤ b) _).lt_of_le
      (hperm.nodup_iff.mpr h)
  · rw [h2]
    rfl

theorem Balances_sorted_witness :
    ∃ entries : List (GoString × Commodity),
      entries.Perm brokerAccount.balance ∧
      (entries.map Prod.fst).Sorted (fun a b => a < b) ∧
      brokerAccount.Balances = entries.map (fun e => some e.2) :=
  Balances_sorted brokerAccount (by decide)

/-! ## The posting grammar -/

theorem foldl_setMetadata_fields (l : List (GoString × GoString)) (q : Posting) :
    (l.foldl (fun q kv => q.setMetadata kv.1 kv.2) q).trans = q.trans ∧
    (l.foldl (fun q kv => q.setMetadata kv.1 kv.2) q).account = q.account ∧
    (l.foldl (fun q kv => q.setMetadata kv.1 kv.2) q).virtual = q.virtual ∧
    (l.foldl (fun q kv => q.setMetadata kv.1 kv.2) q).balanced = q.balanced ∧
    (l.foldl (fun q kv => q.setMetadata kv.1 kv.2) q).commodity = q.commodity ∧
    (l.foldl (fun q kv => q.setMetadata kv.1 kv.2) q).lotprice = q.lotprice ∧
    (l.foldl (fun q kv => q.setMetadata kv.1 kv.2) q).costprice = q.costprice ∧
    (l.foldl (fun q kv => q.setMetadata kv.1 kv.2) q).balprice = q.balprice := by
  induction l generalizing q with
  | nil => exact ⟨rfl, rfl, rfl, rfl, rfl, rfl, rfl, rfl⟩
  | cons kv rest ih => exact ih (q.setMetadata kv.1 kv.2)

theorem foldl_setMetadata_get? (l : List (GoString × GoString)) (q : Posting) (key : GoString)
    (h : ∀ kv ∈ l, kv.1 ≠ key) :
    (l.foldl (fun q kv => q.setMetadata kv.1 kv.2) q).metadata.get? key = q.metadata.get? key := by
  induction l generalizing q with
  | nil => rfl
  | cons kv rest ih =>
    rw [List.foldl_cons, ih _ (fun kv2 h2 => h kv2 (List.mem_cons_of_mem _ h2))]
    exact GoMap.get?_set_other _ _ _ _ (Ne.symm (h kv (List.mem_cons_self _ _)))

theorem GoMap.ne_of_get?_none {V : Type} (m : GoMap V) (k : GoString) (h : m.get? k = none) :
    ∀ e ∈ m, e.1 ≠ k := by
  induction m with
  | nil => intro e he; cases he
  | cons x rest ih =>
    obtain ⟨k1, v1⟩ := x
    unfold GoMap.get? at h
    by_cases hk : k1 = k
    · simp [hk] at h
    · simp only [hk, if_false] at h
      intro e he
      simp only [List.mem_cons] at he
      rcases he with he | he
      · rw [he]; exact hk
      · exact ih h e he

theorem note_fields (parseTags : GoString → Option Tags) (q : Posting) (n : Option GoString) :
    (Posting.Yledger.note parseTags q n).trans = q.trans ∧
    (Posting.Yledger.note parseTags q n).account = q.account ∧
    (Posting.Yledger.note parseTags q n).virtual = q.virtual ∧
    (Posting.Yledger.note parseTags q n).balanced = q.balanced ∧
    (Posting.Yledger.note parseTags q n).commodity = q.commodity ∧
    (Posting.Yledger.note parseTags q n).lotprice = q.lotprice ∧
    (Posting.Yledger.note parseTags q n).costprice = q.costprice ∧
    (Posting.Yledger.note parseTags q n).balprice = q.balprice := by
  cases n with
  | none => exact ⟨rfl, rfl, rfl, rfl, rfl, rfl, rfl, rfl⟩
  | some note =>
    cases h : parseTags note with
    | none =>
      simp [Posting.Yledger.note, h]
    | some tag =>
      simp only [Posting.Yledger.note, h]
      exact foldl_setMetadata_fields tag.tagm _

theorem note_metadata (parseTags : GoString → Option Tags) (q : Posting) (n : Option GoString)
    (key : GoString)
    (h : ∀ note tag, n = some note → parseTags note = some tag → tag.tagm.get? key = none) :
    (Posting.Yledger.note parseTags q n).metadata.get? key = q.metadata.get? key := by
  cases n with
  | none => rfl
  | some note =>
    cases ht : parseTags note with
    | none =>
      simp only [Posting.Yledger.note, ht]
    | some tag =>
      simp only [Posting.Yledger.note, ht]
      rw [foldl_setMetadata_get? tag.tagm _ key
        (GoMap.ne_of_get?_none tag.tagm key (h note tag rfl ht))]

/-- The callback of `Yledger` once the clearing state is stored: `q` is the
posting with the parsed items in its fields. -/
theorem Yledger_run (getCommodity : GoString → Commodity → Commodity)
    (parseTags : GoString → Option Tags) (lotprice costprice : Commodity)
    (p : Posting) (items : PostingItems) (p0 : Posting)
    (hp0 : (match items.pfx with
      | none => some p
      | some [] => none
      | some (r :: _) => some (p.setMetadata "state".toList (prefix2state r))) = some p0) :
    p.Yledger getCommodity parseTags lotprice costprice items =
      .ok (
        if items.lotprice.isSome = true ∧ lotprice.currency = false then
          .error .lotpriceCurrency
        else if items.costprice.isSome = true ∧ costprice.currency = false then
          .error .costpriceCurrency
        else
          match items.balprice, Posting.fixcommodity getCommodity items.commodity with
          | some x, some y =>
            if x.name ≠ y.name then .error (.balanceCommodity x.name y.name)
            else .posting (Posting.Yledger.note parseTags
              { p0 with
                account := .parsed items.account, virtual := items.account.virtual,
                balanced := items.account.balanced,
                commodity := Posting.fixcommodity getCommodity items.commodity,
                lotprice := items.lotprice, costprice := items.costprice,
                balprice := items.balprice } items.note)
          | _, _ => .posting (Posting.Yledger.note parseTags
              { p0 with
                account := .parsed items.account, virtual := items.account.virtual,
                balanced := items.account.balanced,
                commodity := Posting.fixcommodity getCommodity items.commodity,
                lotprice := items.lotprice, costprice := items.costprice,
                balprice := items.balprice } items.note)) := by
  unfold Posting.Yledger
  simp only [hp0, Posting.fixaccount, Posting.fixlotprice, Posting.fixcostprice,
    Posting.fixbalprice]
  by_cases h1 : items.lotprice.isSome = true ∧ lotprice.currency = false
  · simp [h1.1, h1.2]
  · rw [if_neg h1]
    have h1b : (items.lotprice.isSome && (lotprice.currency == false)) = false := by
      cases hl : items.lotprice.isSome <;> cases hc : lotprice.currency <;> simp_all
    simp only [h1b, Bool.false_eq_true, if_false]
    by_cases h2 : items.costprice.isSome = true ∧ costprice.currency = false
    · simp [h2.1, h2.2]
    · rw [if_neg h2]
      have h2b : (items.costprice.isSome && (costprice.currency == false)) = false := by
        cases hl : items.costprice.isSome <;> cases hc : costprice.currency <;> simp_all
      simp only [h2b, Bool.false_eq_true, if_false]
      cases items.balprice <;> cases Posting.fixcommodity getCommodity items.commodity
      all_goals first | rfl | (simp only []; split <;> rfl)

/-- C12: for every parsed posting line (a clearing-state terminal, when there
is one, not being empty, and a lot or cost price node being the object the
closure made for it), the callback returns a node, not a panic; the node is
an error if and only if a lot price is present and is not a currency, or a
cost price is present and is not a currency, or a balance assertion and a
posting commodity are both present and their symbols differ; otherwise it is
the posting, with account, commodity, lot price, cost price and balance
assertion set from the parsed items. -/
theorem Yledger_validation (getCommodity : GoString → Commodity → Commodity)
    (parseTags : GoString → Option Tags) (lotprice costprice : Commodity)
    (p : Posting) (items : PostingItems)
    (hpfx : items.pfx ≠ some [])
    (hlot : ∀ l, items.lotprice = some l → l = lotprice)
    (hcost : ∀ c, items.costprice = some c → c = costprice) :
    ∃ node, p.Yledger getCommodity parseTags lotprice costprice items = .ok node ∧
      ((∃ e, node = .error e) ↔
        ((∃ l, items.lotprice = some l ∧ l.currency = false) ∨
         (∃ c, items.costprice = some c ∧ c.currency = false) ∨
         (∃ x y, items.balprice = some x ∧
            Posting.fixcommodity getCommodity items.commodity = some y ∧ x.name ≠ y.name))) ∧
      ((¬ ∃ e, node = .error e) →
        ∃ q, node = .posting q ∧ q.account = .parsed items.account ∧
          q.virtual = items.account.virtual ∧ q.balanced = items.account.balanced ∧
          q.commodity = Posting.fixcommodity getCommodity items.commodity ∧
          q.lotprice = items.lotprice ∧ q.costprice = items.costprice ∧
          q.balprice = items.balprice) := by
  have hp0 : ∃ p0, (match items.pfx with
      | none => some p
      | some [] => none
      | some (r :: _) => some (p.setMetadata "state".toList (prefix2state r))) = some p0 := by
    cases hx : items.pfx with
    | none => exact ⟨p, rfl⟩
    | some v =>
      cases v with
      | nil => exact absurd hx hpfx
      | cons r rest => exact ⟨_, rfl⟩
  obtain ⟨p0, hp0⟩ := hp0
  have hA : (items.lotprice.isSome = true ∧ lotprice.currency = false) ↔
      ∃ l, items.lotprice = some l ∧ l.currency = false := by
    constructor
    · rintro ⟨h1, h2⟩
      obtain ⟨l, hl⟩ := Option.isSome_iff_exists.mp h1
      exact ⟨l, hl, by rw [hlot l hl]; exact h2⟩
    · rintro ⟨l, hl, h2⟩
      exact ⟨by rw [hl]; rfl, by rw [← hlot l hl]; exact h2⟩
  have hB : (items.costprice.isSome = true ∧ costprice.currency = false) ↔
      ∃ c, items.costprice = some c ∧ c.currency = false := by
    constructor
    · rintro ⟨h1, h2⟩
      obtain ⟨c, hc⟩ := Option.isSome_iff_exists.mp h1
      exact ⟨c, hc, by rw [hcost c hc]; exact h2⟩
    · rintro ⟨c, hc, h2⟩
      exact ⟨by rw [hc]; rfl, by rw [← hcost c hc]; exact h2⟩
  obtain ⟨q0, hq0, hrun⟩ : ∃ q0, q0 = Posting.Yledger.note parseTags
      { p0 with
        account := .parsed items.account, virtual := items.account.virtual,
        balanced := items.account.balanced,
        commodity := Posting.fixcommodity getCommodity items.commodity,
        lotprice := items.lotprice, costprice := items.costprice,
        balprice := items.balprice } items.note ∧
      p.Yledger getCommodity parseTags lotprice costprice items =
      .ok (
        if items.lotprice.isSome = true ∧ lotprice.currency = false then
          .error .lotpriceCurrency
        else if items.costprice.isSome = true ∧ costprice.currency = false then
          .error .costpriceCurrency
        else
          match items.balprice, Posting.fixcommodity getCommodity items.commodity with
          | some x, some y =>
            if x.name ≠ y.name then .error (.balanceCommodity x.name y.name)
            else .posting q0
          | _, _ => .posting q0) :=
    ⟨_, rfl, Yledger_run getCommodity parseTags lotprice costprice p items p0 hp0⟩
  have hfields := note_fields parseTags
    { p0 with
      account := .parsed items.account, virtual := items.account.virtual,
      balanced := items.account.balanced,
      commodity := Posting.fixcommodity getCommodity items.commodity,
      lotprice := items.lotprice, costprice := items.costprice,
      balprice := items.balprice } items.note
  rw [← hq0] at hfields
  obtain ⟨-, f1, f2, f3, f4, f5, f6, f7⟩ := hfields
  clear hq0
  refine ⟨_, hrun, ?_, ?_⟩
  · by_cases h1 : items.lotprice.isSome = true ∧ lotprice.currency = false
    · rw [if_pos h1]
      exact ⟨fun _ => Or.inl (hA.mp h1), fun _ => ⟨_, rfl⟩⟩
    · rw [if_neg h1]
      by_cases h2 : items.costprice.isSome = true ∧ costprice.currency = false
      · rw [if_pos h2]
        exact ⟨fun _ => Or.inr (Or.inl (hB.mp h2)), fun _ => ⟨_, rfl⟩⟩
      · rw [if_neg h2]
        cases hb : items.balprice with
        | none =>
          constructor
          · rintro ⟨e, he⟩
            cases Posting.fixcommodity getCommodity items.commodity <;> cases he
          · rintro (h | h | ⟨x, y, hx, -, -⟩)
            · exact absurd (hA.mpr h) h1
            · exact absurd (hB.mpr h) h2
            · cases hx
        | some x =>
          cases hy : Posting.fixcommodity getCommodity items.commodity with
          | none =>
            constructor
            · rintro ⟨e, he⟩; cases he
            · rintro (h | h | ⟨x2, y, -, hy2, -⟩)
              · exact absurd (hA.mpr h) h1
              · exact absurd (hB.mpr h) h2
              · cases hy2
          | some y =>
            simp only
            by_cases hn : x.name ≠ y.name
            · rw [if_pos hn]
              exact ⟨fun _ => Or.inr (Or.inr ⟨x, y, rfl, rfl, hn⟩), fun _ => ⟨_, rfl⟩⟩
            · rw [if_neg hn]
              constructor
              · rintro ⟨e, he⟩; cases he
              · rintro (h | h | ⟨x2, y2, hx2, hy2, hn2⟩)
                · exact absurd (hA.mpr h) h1
                · exact absurd (hB.mpr h) h2
                · cases hx2; cases hy2; exact absurd hn2 hn
  · intro hne
    refine ⟨q0, ?_, f1, f2, f3, f4, f5, f6, f7⟩
    by_cases h1 : items.lotprice.isSome = true ∧ lotprice.currency = false
    · rw [if_pos h1] at hne; exact absurd ⟨_, rfl⟩ hne
    · rw [if_neg h1] at hne ⊢
      by_cases h2 : items.costprice.isSome = true ∧ costprice.currency = false
      · rw [if_pos h2] at hne; exact absurd ⟨_, rfl⟩ hne
      · rw [if_neg h2] at hne ⊢
        revert hne
        cases items.balprice with
        | none =>
          intro _
          cases Posting.fixcommodity getCommodity items.commodity <;> rfl
        | some x =>
          cases Posting.fixcommodity getCommodity items.commodity with
          | none => intro _; rfl
          | some y =>
            simp only
            intro hne
            by_cases hn : x.name ≠ y.name
            · rw [if_pos hn] at hne; exact absurd ⟨_, rfl⟩ hne
            · rw [if_neg hn]

theorem Yledger_validation_witness :
    ∃ node, blankPosting.Yledger (fun _ c => c) sampleTags (aapl 3) (usd 0 false)
        (lotItems (aapl 3)) = .ok node ∧
      ((∃ e, node = .error e) ↔
        ((∃ l, (lotItems (aapl 3)).lotprice = some l ∧ l.currency = false) ∨
         (∃ c, (lotItems (aapl 3)).costprice = some c ∧ c.currency = false) ∨
         (∃ x y, (lotItems (aapl 3)).balprice = some x ∧
            Posting.fixcommodity (fun _ c => c) (lotItems (aapl 3)).commodity = some y ∧
            x.name ≠ y.name))) ∧
      ((¬ ∃ e, node = .error e) →
        ∃ q, node = .posting q ∧ q.account = .parsed (lotItems (aapl 3)).account ∧
          q.virtual = (lotItems (aapl 3)).account.virtual ∧
          q.balanced = (lotItems (aapl 3)).account.balanced ∧
          q.commodity = Posting.fixcommodity (fun _ c => c) (lotItems (aapl 3)).commodity ∧
          q.lotprice = (lotItems (aapl 3)).lotprice ∧
          q.costprice = (lotItems (aapl 3)).costprice ∧
          q.balprice = (lotItems (aapl 3)).balprice) :=
  Yledger_validation (fun _ c => c) sampleTags (aapl 3) (usd 0 false) blankPosting
    (lotItems (aapl 3)) (by decide)
    (fun l h => by
      have : some l = some (aapl 3) := h.symm.trans rfl
      exact Option.some.inj this)
    (fun c h => by cases h)

/-- A posting returned by the callback is the posting with the clearing
state stored, the parsed items in its fields and the note applied. -/
theorem Yledger_posting (getCommodity : GoString → Commodity → Commodity)
    (parseTags : GoString → Option Tags) (lotprice costprice : Commodity)
    (p : Posting) (items : PostingItems) (q : Posting)
    (hq : p.Yledger getCommodity parseTags lotprice costprice items = .ok (.posting q)) :
    ∃ p0, (match items.pfx with
        | none => some p
        | some [] => none
        | some (r :: _) => some (p.setMetadata "state".toList (prefix2state r))) = some p0 ∧
      q = Posting.Yledger.note parseTags
        { p0 with
          account := .parsed items.account, virtual := items.account.virtual,
          balanced := items.account.balanced,
          commodity := Posting.fixcommodity getCommodity items.commodity,
          lotprice := items.lotprice, costprice := items.costprice,
          balprice := items.balprice } items.note := by
  have hp0 : ∃ p0, (match items.pfx with
      | none => some p
      | some [] => none
      | some (r :: _) => some (p.setMetadata "state".toList (prefix2state r))) = some p0 := by
    cases hx : items.pfx with
    | none => exact ⟨p, rfl⟩
    | some v =>
      cases v with
      | nil =>
        exfalso
        unfold Posting.Yledger at hq
        simp only [hx] at hq
        cases hq
      | cons r rest => exact ⟨_, rfl⟩
  obtain ⟨p0, hp0⟩ := hp0
  refine ⟨p0, hp0, ?_⟩
  rw [Yledger_run getCommodity parseTags lotprice costprice p items p0 hp0] at hq
  simp only [Except.ok.injEq] at hq
  by_cases h1 : items.lotprice.isSome = true ∧ lotprice.currency = false
  · rw [if_pos h1] at hq; cases hq
  · rw [if_neg h1] at hq
    by_cases h2 : items.costprice.isSome = true ∧ costprice.currency = false
    · rw [if_pos h2] at hq; cases hq
    · rw [if_neg h2] at hq
      revert hq
      generalize Posting.Yledger.note parseTags
        { p0 with
          account := .parsed items.account, virtual := items.account.virtual,
          balanced := items.account.balanced,
          commodity := Posting.fixcommodity getCommodity items.commodity,
          lotprice := items.lotprice, costprice := items.costprice,
          balprice := items.balprice } items.note = q0
      cases items.balprice with
      | none =>
        cases Posting.fixcommodity getCommodity items.commodity <;>
          (intro hq; simp only [ParsecNode.posting.injEq] at hq; exact hq.symm)
      | some x =>
        cases Posting.fixcommodity getCommodity items.commodity with
        | none => intro hq; simp only [ParsecNode.posting.injEq] at hq; exact hq.symm
        | some y =>
          simp only
          intro hq
          by_cases hn : x.name ≠ y.name
          · rw [if_pos hn] at hq; cases hq
          · rw [if_neg hn] at hq
            simp only [ParsecNode.posting.injEq] at hq
            exact hq.symm

theorem getState_of_metadata (q : Posting) (st : GoString)
    (h : q.metadata.get? "state".toList = some st) : q.getState = st := by
  unfold Posting.getState Posting.getMetadata
  rw [h]

/-- C14 as stated fails twice: a line without clearing-state terminal, in a
transaction without state, gives the state the empty string, not
`uncleared`; and a line with the terminal `*` whose note carries the tagged
value `state` gives that value, not `cleared`. -/
theorem getState_not_as_stated :
    (∃ q, blankPosting.Yledger (fun _ c => c) sampleTags (usd 0 false) (usd 0 false)
        (cashItems none none) = .ok (.posting q) ∧
      q.getState = [] ∧ q.getState ≠ PostUncleared) ∧
    (∃ q, blankPosting.Yledger (fun _ c => c) sampleTags (usd 0 false) (usd 0 false)
        (cashItems (some "*".toList) (some "; state: void".toList)) = .ok (.posting q) ∧
      q.getState = "void".toList ∧ q.getState ≠ PostCleared) := by
  constructor
  · exact ⟨_, rfl, by decide, by decide⟩
  · exact ⟨_, rfl, by decide, by decide⟩

/-- C14, amended: for every posting the grammar returns for a posting line
whose note carries no tagged value `state`, the clearing state (getState) is
`cleared` when the line has the terminal `*` and `pending` when it has `!`;
when the terminal is absent (the posting having no state of its own before),
it is the state of the owning transaction, the empty string if that has
none. -/
theorem Yledger_state (getCommodity : GoString → Commodity → Commodity)
    (parseTags : GoString → Option Tags) (lotprice costprice : Commodity)
    (p : Posting) (items : PostingItems) (q : Posting)
    (htag : ∀ note tag, items.note = some note → parseTags note = some tag →
      tag.tagm.get? "state".toList = none)
    (hq : p.Yledger getCommodity parseTags lotprice costprice items = .ok (.posting q)) :
    (∀ rest, items.pfx = some ('*' :: rest) → q.getState = PostCleared) ∧
    (∀ rest, items.pfx = some ('!' :: rest) → q.getState = PostPending) ∧
    (items.pfx = none → p.metadata.get? "state".toList = none →
      q.getState = match p.trans.getMetadata "state".toList with
        | some st => st
        | none => []) := by
  obtain ⟨p0, hp0, hq0⟩ := Yledger_posting getCommodity parseTags lotprice costprice p items q hq
  have hmeta : q.metadata.get? "state".toList = p0.metadata.get? "state".toList := by
    rw [hq0, note_metadata parseTags _ items.note "state".toList htag]
  have htrans : q.trans = p0.trans := by
    rw [hq0]; exact (note_fields parseTags _ items.note).1
  refine ⟨?_, ?_, ?_⟩
  · intro rest hx
    rw [hx] at hp0
    simp only [Option.some.injEq] at hp0
    apply getState_of_metadata
    rw [hmeta, ← hp0]
    exact GoMap.get?_set_self _ _ _
  · intro rest hx
    rw [hx] at hp0
    simp only [Option.some.injEq] at hp0
    apply getState_of_metadata
    rw [hmeta, ← hp0]
    exact GoMap.get?_set_self _ _ _
  · intro hx hnone
    rw [hx] at hp0
    simp only [Option.some.injEq] at hp0
    subst hp0
    unfold Posting.getState Posting.getMetadata
    rw [hmeta, hnone, htrans]
    cases p.trans.getMetadata "state".toList <;> rfl

theorem Yledger_state_witness :
    (∀ rest, (cashItems (some "*".toList) none).pfx = some ('*' :: rest) →
      ({ mkPosting "Assets:Cash".toList (some usd10) none none none with
          metadata := [("state".toList, PostCleared)] } : Posting).getState = PostCleared) ∧
    (∀ rest, (cashItems (some "*".toList) none).pfx = some ('!' :: rest) →
      ({ mkPosting "Assets:Cash".toList (some usd10) none none none with
          metadata := [("state".toList, PostCleared)] } : Posting).getState = PostPending) ∧
    ((cashItems (some "*".toList) none).pfx = none →
      blankPosting.metadata.get? "state".toList = none →
      ({ mkPosting "Assets:Cash".toList (some usd10) none none none with
          metadata := [("state".toList, PostCleared)] } : Posting).getState =
        match blankPosting.trans.getMetadata "state".toList with
        | some st => st
        | none => []) :=
  Yledger_state (fun _ c => c) sampleTags (usd 0 false) (usd 0 false) blankPosting
    (cashItems (some "*".toList) none)
    { mkPosting "Assets:Cash".toList (some usd10) none none none with
      metadata := [("state".toList, PostCleared)] }
    (fun note tag h => by cases h) rfl

/-! ## Secondpass fails fast and does not roll back -/

theorem bubbleThrough_spec (p : Posting) (c : Commodity) (names : List GoString)
    (db : Datastore) :
    (∀ m, m ∉ names → (bubbleThrough p c db names).findAccount m = db.findAccount m) ∧
    (∀ m name, (bubbleThrough p c db names).amountOf m name = db.amountOf m name +
      (if c.name = name then (occurrences m names : ℚ) * c.amount else 0)) ∧
    (bubbleThrough p c db names).reported =
      db.reported ++ names.map (fun n => ReporterCall.bubblePosting p n) := by
  induction names generalizing db with
  | nil =>
    refine ⟨fun _ _ => rfl, fun m name => ?_, ?_⟩
    · simp [bubbleThrough, occurrences]
    · simp [bubbleThrough]
  | cons n rest ih =>
    obtain ⟨h1, h2, h3⟩ := ih (bubbleStep p c db n)
    have hcons : bubbleThrough p c db (n :: rest) = bubbleThrough p c (bubbleStep p c db n) rest :=
      rfl
    rw [hcons]
    refine ⟨?_, ?_, ?_⟩
    · intro m hm
      simp only [List.mem_cons, not_or] at hm
      rw [h1 m hm.2]
      unfold bubbleStep
      rw [findAccount_bubble]
      simp [hm.1]
    · intro m name
      rw [h2]
      unfold bubbleStep
      rw [amountOf_bubble]
      by_cases hm : m = n <;> by_cases hn : c.name = name <;>
        simp [occurrences, hm, hn, add_assoc]
      ring
    · rw [h3]
      unfold bubbleStep
      simp [Datastore.record, Datastore.putAccount, Datastore.GetAccount]
      cases db.findAccount n <;> rfl

theorem doTotal_loop_fails (rep : Reporter) (trans : Transaction) (p : Posting) (c : Commodity)
    (hc : p.commodity = some c) (segs parts : List GoString) (db : Datastore) (j : Nat)
    (msg : GoString) (h : bubbleFailsAt rep trans p c db (bubbleNames segs parts) j msg) :
    Account.doTotal.loop rep trans p segs parts db =
      .ok (bubbleThrough p c db ((bubbleNames segs parts).take (j + 1)),
        some (.reporter msg)) := by
  induction segs generalizing parts db j with
  | nil =>
    obtain ⟨h1, -, -⟩ := h
    simp [bubbleNames] at h1
  | cons seg rest ih =>
    obtain ⟨h1, h2, h3⟩ := h
    rw [doTotal_loop_cons rep trans p c hc]
    cases j with
    | zero =>
      have h3b : rep.BubblePosting (bubbleStep p c db (strings.Join (parts ++ [seg]) ':')) trans p
          ((db.GetAccount (strings.Join (parts ++ [seg]) ':')).2.addBalance c) = some msg := h3
      unfold bubbleStep at h3b
      rw [h3b]
      rfl
    | succ j =>
      have h20 : rep.BubblePosting (bubbleStep p c db (strings.Join (parts ++ [seg]) ':')) trans p
          ((db.GetAccount (strings.Join (parts ++ [seg]) ':')).2.addBalance c) = none :=
        h2 0 (Nat.succ_pos j)
      have hrest : bubbleFailsAt rep trans p c
          (bubbleStep p c db (strings.Join (parts ++ [seg]) ':'))
          (bubbleNames rest (parts ++ [seg])) j msg := by
        refine ⟨?_, ?_, ?_⟩
        · simp only [bubbleNames, List.length_cons] at h1
          omega
        · intro i hi
          exact h2 (i + 1) (by omega)
        · exact h3
      have := ih (parts ++ [seg]) (bubbleStep p c db (strings.Join (parts ++ [seg]) ':')) j hrest
      unfold bubbleStep at h20 this
      rw [h20]
      simp only
      rw [this]
      rfl

theorem storeAccount_reported (p : Posting) (db : Datastore) (a : Account) :
    (p.storeAccount db a).1.reported = db.reported := by
  unfold Posting.storeAccount
  cases p.account <;> rfl

theorem afterAddition_own (p : Posting) (db : Datastore) (c : Commodity) (name : GoString) :
    ((afterAddition p db c).2.account.load (afterAddition p db c).1).amountOf name =
      (p.account.load db).amountOf name + (if c.name = name then c.amount else 0) := by
  unfold afterAddition
  rw [load_storeAccount p db _ (by rw [addBalance_name, load_name]), amountOf_addBalance]

/-- The account posted to, read in a later datastore state that holds the
registry entry of its name as the addition left it. -/
theorem own_amount_later (p : Posting) (db db1 : Datastore) (c : Commodity) (name : GoString)
    (h : ∀ n, p.account = .canonical n →
      db1.amountOf n name = (afterAddition p db c).1.amountOf n name) :
    ((afterAddition p db c).2.account.load db1).amountOf name =
      (p.account.load db).amountOf name + (if c.name = name then c.amount else 0) := by
  cases hp : p.account with
  | parsed a0 =>
    have e : (afterAddition p db c).2.account =
        .parsed ((p.account.load db).addBalance c) := by
      unfold afterAddition Posting.storeAccount
      rw [hp]
    rw [e, ← hp]
    exact amountOf_addBalance _ _ _
  | canonical n =>
    have e : (afterAddition p db c).2.account = .canonical n := by
      unfold afterAddition Posting.storeAccount
      simp only [hp]
    rw [e, load_amountOf_canonical, h n hp]
    unfold afterAddition
    rw [storeAccount_amountOf, hp, load_amountOf_canonical]
    simp

/-- C15: Secondpass fails fast and does not roll back.  When the balance
assertion fails, the mismatch error is returned with the account's own
balance already increased by the posting's amount, every other account (the
ancestors among them) as before and no call made on the reporter.  When the
assertion holds or is absent, the reporter accepts the posting and its
BubblePosting fails at ancestor number j + 1 (from the root), that error is
returned with the account and the ancestors up to number j + 1 holding the
added amount and the ancestors after it as before. -/
theorem Secondpass_fail_fast (rep : Reporter) (db : Datastore) (trans : Transaction)
    (p : Posting) (c : Commodity) (hc : p.commodity = some c) :
    (∀ balance b, ((p.account.load db).addBalance c).Balance c.name = some balance →
      p.balprice = some b → balance.BalanceEqual b = false →
      ∃ db1 p1, Account.Secondpass rep p.account db trans p =
          .ok (db1, p1, some (.balanceMismatch p.account.name b balance)) ∧
        (p1.account.load db1).amountOf c.name =
          (p.account.load db).amountOf c.name + c.amount ∧
        (∀ m, p.account ≠ .canonical m → db1.findAccount m = db.findAccount m) ∧
        db1.reported = db.reported) ∧
    (∀ j msg,
      (∀ balance b, ((p.account.load db).addBalance c).Balance c.name = some balance →
        p.balprice = some b → balance.BalanceEqual b = true) →
      rep.Posting ((afterAddition p db c).1.record (.posting (afterAddition p db c).2)) trans
        (afterAddition p db c).2 = none →
      bubbleFailsAt rep trans (afterAddition p db c).2 c
        ((afterAddition p db c).1.record (.posting (afterAddition p db c).2))
        (ancestors p.account.name) j msg →
      ∃ db1 p1, Account.Secondpass rep p.account db trans p =
          .ok (db1, p1, some (.reporter msg)) ∧
        (p1.account.load db1).amountOf c.name =
          (p.account.load db).amountOf c.name + c.amount ∧
        (∀ anc ∈ (ancestors p.account.name).take (j + 1),
          db1.amountOf anc c.name = db.amountOf anc c.name + c.amount) ∧
        (∀ anc ∈ (ancestors p.account.name).drop (j + 1),
          db1.findAccount anc = db.findAccount anc)) := by
  have hname : ((p.account.load db).addBalance c).name = p.account.name := by
    rw [addBalance_name, load_name]
  obtain ⟨balance0, hb0, hrun⟩ := Secondpass_run rep p.account db trans p c hc
  have hc2 : (afterAddition p db c).2.commodity = some c := by
    unfold afterAddition
    rw [storeAccount_commodity, hc]
  constructor
  · intro balance b hb hbp hne
    rw [hb0] at hb
    simp only [Option.some.injEq] at hb
    subst hb
    rw [hbp] at hrun
    simp only [if_pos hne] at hrun
    refine ⟨_, _, hrun, ?_, ?_, ?_⟩
    · have := afterAddition_own p db c c.name
      unfold afterAddition at this
      rw [this]; simp
    · intro m hm
      exact storeAccount_findAccount p db _ m hname hm
    · exact storeAccount_reported p db _
  · intro j msg hok hrep hfail
    have hreport : Account.Secondpass rep p.account db trans p =
        Account.Secondpass.report rep p.account (afterAddition p db c).1 trans
          (afterAddition p db c).2 := by
      rw [hrun]
      cases hbp : p.balprice with
      | none => rfl
      | some b =>
        have := hok balance0 b hb0 hbp
        simp only [this, Bool.true_eq_false, if_false]
        rfl
    have hloop := doTotal_loop_fails rep trans (afterAddition p db c).2 c hc2
      (SplitAccount p.account.name).dropLast []
      ((afterAddition p db c).1.record (.posting (afterAddition p db c).2)) j msg
      (by rw [← ancestors_eq_bubbleNames]; exact hfail)
    rw [← ancestors_eq_bubbleNames] at hloop
    obtain ⟨hfind, hamt, -⟩ := bubbleThrough_spec (afterAddition p db c).2 c
      ((ancestors p.account.name).take (j + 1))
      ((afterAddition p db c).1.record (.posting (afterAddition p db c).2))
    have hnd : ((ancestors p.account.name).take (j + 1)).Nodup :=
      (ancestors_nodup p.account.name).sublist (List.take_sublist _ _)
    have hrec : ∀ m name,
        ((afterAddition p db c).1.record (.posting (afterAddition p db c).2)).amountOf m name =
          (afterAddition p db c).1.amountOf m name := fun _ _ => rfl
    refine ⟨bubbleThrough (afterAddition p db c).2 c
      ((afterAddition p db c).1.record (.posting (afterAddition p db c).2))
      ((ancestors p.account.name).take (j + 1)), (afterAddition p db c).2, ?_, ?_, ?_, ?_⟩
    · rw [hreport]
      unfold Account.Secondpass.report
      simp only [hrep]
      unfold Account.doTotal
      rw [hloop]
    · have := own_amount_later p db
        (bubbleThrough (afterAddition p db c).2 c
          ((afterAddition p db c).1.record (.posting (afterAddition p db c).2))
          ((ancestors p.account.name).take (j + 1))) c c.name
        (by
          intro n hn
          rw [hamt, hrec, occurrences_nodup n _ hnd]
          have : n ∉ (ancestors p.account.name).take (j + 1) := by
            intro hmem
            have := List.mem_of_mem_take hmem
            rw [hn] at this
            exact not_mem_ancestors_self n this
          simp [this])
      rw [this]; simp
    · intro anc hanc
      have hmem := List.mem_of_mem_take hanc
      have hne : p.account ≠ .canonical anc := by
        intro e
        rw [e] at hmem
        exact not_mem_ancestors_self anc hmem
      rw [hamt, hrec, occurrences_nodup anc _ hnd]
      unfold afterAddition
      rw [storeAccount_amountOf]
      simp [hanc, hne]
    · intro anc hanc
      have hmem := List.mem_of_mem_drop hanc
      have hne : p.account ≠ .canonical anc := by
        intro e
        rw [e] at hmem
        exact not_mem_ancestors_self anc hmem
      have hnot : anc ∉ (ancestors p.account.name).take (j + 1) := fun h =>
        List.disjoint_take_drop (ancestors_nodup p.account.name) (le_refl _) h hanc
      rw [hfind anc hnot, findAccount_record]
      exact storeAccount_findAccount p db _ anc hname hne

theorem Secondpass_fail_fast_witness :
    (∃ db1 p1, Account.Secondpass quietReporter (assertedPosting 11).account emptyDb
          (assertedPosting 11).trans (assertedPosting 11) =
          .ok (db1, p1, some (.balanceMismatch (assertedPosting 11).account.name
            (usd 11 false) usd10)) ∧
        (p1.account.load db1).amountOf usd10.name =
          ((assertedPosting 11).account.load emptyDb).amountOf usd10.name + usd10.amount ∧
        (∀ m, (assertedPosting 11).account ≠ .canonical m →
          db1.findAccount m = emptyDb.findAccount m) ∧
        db1.reported = emptyDb.reported) ∧
    (∃ db1 p1, Account.Secondpass foodReporter applePosting.account emptyDb
          applePosting.trans applePosting =
          .ok (db1, p1, some (.reporter "no report".toList)) ∧
        (p1.account.load db1).amountOf usd10.name =
          (applePosting.account.load emptyDb).amountOf usd10.name + usd10.amount ∧
        (∀ anc ∈ (ancestors applePosting.account.name).take (1 + 1),
          db1.amountOf anc usd10.name = emptyDb.amountOf anc usd10.name + usd10.amount) ∧
        (∀ anc ∈ (ancestors applePosting.account.name).drop (1 + 1),
          db1.findAccount anc = emptyDb.findAccount anc)) :=
  ⟨(Secondpass_fail_fast quietReporter emptyDb (assertedPosting 11).trans (assertedPosting 11)
      usd10 rfl).1 usd10 (usd 11 false) rfl rfl
      (by simp [Commodity.BalanceEqual, usd10, usd]),
   (Secondpass_fail_fast foodReporter emptyDb applePosting.trans applePosting usd10 rfl).2
      1 "no report".toList (fun _ b _ h => by cases h) rfl
      ⟨by decide, fun i hi => by
          have h0 : i = 0 := by omega
          subst h0
          rfl, rfl⟩⟩

end dblentry
